import Mathlib

/-!
# Verification of the sheet storage engine (`src/db.rs`, `src/sheet.rs`)

A shallow embedding of the Rust sheet/lookup engine:

* `Schema.is_valid`           embeds `Schema::is_valid`       (sheet.rs)
* `CellValue.is_lookup`       embeds `CellValue::is_lookup`   (sheet.rs)
* `detectCycle`               embeds `Db::detect_cycle`       (db.rs)
* `new_sheet`                 embeds `Db::new_sheet`          (db.rs)
* `insert_cell`               embeds `Db::insert_cell`        (db.rs)
* `get_sheet`                 embeds `Db::get_sheet`          (db.rs)

Modelling conventions:

* Rust `i64` values (rows, column ids) are modelled as `Int`.  The code
  performs no arithmetic on them, only equality tests and map keying, so
  the embedding is exact on every representable value.
* SQL tables keyed by a unique index, and Rust `HashMap`s, are modelled as
  association lists with no duplicate keys (`pget` / `pset` / `perase`
  mirror point lookup, upsert and delete).  Where the Rust code iterates a
  `HashMap` in unspecified order, the embedding iterates the association
  list in list order (a fixed determinization of that order).
* `f64` literal payloads are carried as an uninterpreted bit pattern
  (`Nat`); the engine only stores and copies doubles, it never computes
  with them.
* The unbounded loops of `Db::detect_cycle` and the resolution loop of
  `Db::get_sheet` take explicit fuel; the code's own argument (each step
  consumes one edge) is proved as a fuel-sufficiency theorem.
-/

/-- Column kinds, from `SchemaColumnKind` in sheet.rs. -/

inductive SchemaColumnKind where
  | Boolean
  | Int
  | Double
  | String
deriving DecidableEq, Repr

/-- Cell literal values, from `CellValue` in sheet.rs.  The `f64` payload of
`Double` is carried as its (uninterpreted) 64-bit pattern. -/
inductive CellValue where
  | Boolean (b : Bool)
  | Int (n : Int)
  | Double (bits : Nat)
  | String (s : String)
deriving DecidableEq, Repr

/-- Embeds `SchemaColumnKind::from(&CellValue)` from sheet.rs. -/
def SchemaColumnKind.ofValue : CellValue → SchemaColumnKind
  | .Boolean _ => .Boolean
  | .Double _ => .Double
  | .Int _ => .Int
  | .String _ => .String

/-- A schema column, from `SchemaColumn` in sheet.rs. -/
structure SchemaColumn where
  name : String
  kind : SchemaColumnKind
deriving DecidableEq, Repr

/-- A schema, from `Schema` in sheet.rs. -/
structure Schema where
  columns : List SchemaColumn
deriving DecidableEq, Repr

/-- The loop body of `Schema::is_valid`: walk the columns keeping the set of
names seen so far (the Rust `HashSet` is modelled as the list of names
already inserted). -/
def Schema.isValidGo (seen : List String) : List SchemaColumn → Bool
  | [] => true
  | col :: rest =>
    if col.name.data.contains '"' || seen.contains col.name then false
    else Schema.isValidGo (col.name :: seen) rest

/-- Embeds `Schema::is_valid` from sheet.rs: all column names unique and none
containing a double quote. -/
def Schema.is_valid (s : Schema) : Bool :=
  Schema.isValidGo [] s.columns

/-- A cell write request, from `Cell` in sheet.rs. -/
structure Cell where
  column : String
  row : Int
  value : CellValue
deriving DecidableEq, Repr

/-- A parsed lookup reference, from `LookupCellValue` in sheet.rs. -/
structure LookupCellValue where
  target_col : String
  target_row : Int
deriving DecidableEq, Repr

/-! ## The lookup pattern

`CellValue::is_lookup` matches the anchored regex
`^lookup\(\s*"([^"]+)"\s*,\s*(\d+)\s*\)$` and then parses the digit capture
as an `i64`.  The regex is deterministic (each `\s*`, `[^"]+` and `\d+` is
followed by a character it cannot match), so it is embedded as a
left-to-right scanner.  `\d` is modelled as an ASCII digit: the only
divergence from the Unicode digit class is on inputs containing non-ASCII
digits, and those fail the subsequent `i64` parse in the code, so the
composed function agrees on every input. -/

/-- The whitespace class `\s` of the lookup regex (Unicode `White_Space`). -/

def isWsChar (c : Char) : Bool :=
  c = '\x20' || c = '\x09' || c = '\x0a' || c = '\x0d' ||
  c = '\x0b' || c = '\x0c' || c = '\u0085' || c = '\u00A0' ||
  c = '\u1680' || ('\u2000' ≤ c && c ≤ '\u200A') ||
  c = '\u2028' || c = '\u2029' || c = '\u202F' || c = '\u205F' ||
  c = '\u3000'

/-- The digit class `\d` of the lookup regex (see the note above on ASCII). -/
def isDigitChar (c : Char) : Bool :=
  '0' ≤ c && c ≤ '9'

/-- Numeric value of a digit string, as computed by `str::parse::<i64>` on a
string of decimal digits. -/
def digitsVal (ds : List Char) : Nat :=
  ds.foldl (fun acc c => acc * 10 + (c.toNat - '0'.toNat)) 0

/-- The value of `i64::MAX`; `str::parse::<i64>` fails beyond it. -/
def i64Max : Nat := 9223372036854775807

/-- The character class `[^"]` of the column-name capture. -/
def isNotQuote (c : Char) : Bool :=
  c ≠ '"'

/-- The literal `lookup(` prefix of the pattern. -/
def lookupHead : List Char :=
  ['l', 'o', 'o', 'k', 'u', 'p', '(']

/-- Scanner for the body of the lookup regex after the literal `lookup(`
prefix: `\s*"([^"]+)"\s*,\s*(\d+)\s*\)$`.  Returns the column-name capture
and the digit capture. -/
def parseLookupBody (cs : List Char) : Option (List Char × List Char) :=
  match cs.dropWhile isWsChar with
  | [] => none
  | c :: cs1 =>
    if c = '"' then
      let name := cs1.takeWhile isNotQuote
      let cs2 := cs1.dropWhile isNotQuote
      if name.isEmpty then none
      else
        match cs2 with
        | [] => none
        | c2 :: cs3 =>
          if c2 = '"' then
            match cs3.dropWhile isWsChar with
            | [] => none
            | c4 :: cs5 =>
              if c4 = ',' then
                let cs6 := cs5.dropWhile isWsChar
                let digits := cs6.takeWhile isDigitChar
                let cs7 := cs6.dropWhile isDigitChar
                if digits.isEmpty then none
                else if cs7.dropWhile isWsChar = [')'] then some (name, digits)
                else none
              else none
          else none
    else none

/-- Embeds `CellValue::is_lookup` from sheet.rs: textual values matching the lookup
regex, with the row capture parsed as an `i64`. -/
def CellValue.is_lookup : CellValue → Option LookupCellValue
  | .String s =>
    if s.data.take 7 = lookupHead then
      match parseLookupBody (s.data.drop 7) with
      | some (name, digits) =>
        if digitsVal digits ≤ i64Max then
          some ⟨{ data := name }, Int.ofNat (digitsVal digits)⟩
        else none
      | none => none
    else none
  | _ => none

/-! ## Point maps

SQL tables with a unique key, and the Rust `HashMap`s of `get_sheet`, are
modelled as association lists.  `pget` is point lookup, `pset` is
insert-or-overwrite (`ON CONFLICT ... DO UPDATE` / `HashMap::insert`),
`perase` is point deletion (`DELETE ... WHERE` / `HashMap::remove`). -/

/-- Point lookup: the value at the first occurrence of key `k`. -/

def pget {K V : Type} [DecidableEq K] : List (K × V) → K → Option V
  | [], _ => none
  | (k', v) :: t, k => if k' = k then some v else pget t k

/-- Upsert: overwrite the first occurrence of key `k`, or append. -/
def pset {K V : Type} [DecidableEq K] : List (K × V) → K → V → List (K × V)
  | [], k, v => [(k, v)]
  | (k', v') :: t, k, v =>
    if k' = k then (k, v) :: t else (k', v') :: pset t k v

/-- Point deletion: remove the first occurrence of key `k`. -/
def perase {K V : Type} [DecidableEq K] : List (K × V) → K → List (K × V)
  | [], _ => []
  | (k', v') :: t, k => if k' = k then t else (k', v') :: perase t k

/-- Distinct keys: the uniqueness constraint of the SQL tables. -/
def NodupKeys {K V : Type} (l : List (K × V)) : Prop :=
  (l.map Prod.fst).Nodup

/-! ## The lookup-edge graph

A cell address is `(column id, row)`; the lookup-edge table of a sheet maps
each source cell to at most one target cell (unique index on
`(col_id, row)`). -/

/-- A cell address: column id and row, both `i64` in the code. -/

abbrev CellId := Int × Int

/-- The lookup-edge table: source cell to target cell. -/
abbrev LookupMap := List (CellId × CellId)

/-- One lookup edge: `a`'s stored target is `b`. -/
def EdgeStep (l : LookupMap) (a b : CellId) : Prop :=
  pget l a = some b

/-- The lookup-edge relation has no directed cycle (self-loops included). -/
def Acyclic (l : LookupMap) : Prop :=
  ∀ c, ¬ Relation.TransGen (EdgeStep l) c c

/-- Cell `t` is the terminal of the chain starting at `c`: reachable from
`c` along lookup edges and without an outgoing edge of its own. -/
def IsTerm (l : LookupMap) (c t : CellId) : Prop :=
  Relation.ReflTransGen (EdgeStep l) c t ∧ pget l t = none

/-- The loop of `Db::detect_cycle` (db.rs): follow the current cell's edge,
reporting `true` on reaching `src`, `false` on a cell with no edge.  The
Rust loop is unbounded; `fuel` bounds the number of edge traversals and
`none` marks exhaustion (proved unreachable for acyclic states, with fuel
one per stored edge). -/
def detectCycleGo (l : LookupMap) (src : CellId) : CellId → Nat → Option Bool
  | cur, fuel =>
    match pget l cur with
    | none => some false
    | some nxt =>
      if nxt = src then some true
      else
        match fuel with
        | 0 => none
        | f + 1 => detectCycleGo l src nxt f

/-- Embeds `Db::detect_cycle` (db.rs): report a cycle immediately when the new
edge's source equals its target, otherwise walk from the target. -/
def detectCycle (l : LookupMap) (src tgt : CellId) (fuel : Nat) : Option Bool :=
  if src = tgt then some true else detectCycleGo l src tgt fuel

/-! ## Sheet state and the Db operations

A provisioned sheet's three backing structures (db.rs): the column catalog
(derived from the immutable schema, column id = position), the value table
(cells currently holding a literal; a SQL `NULL` cell is simply absent,
matching the `WHERE NOT col IS NULL` filter of `get_column_content`), and
the lookup-edge table. -/

/-- The per-sheet storage state. -/

structure SheetState where
  schema : Schema
  values : List (CellId × CellValue)
  lookups : LookupMap
deriving Repr, DecidableEq

/-- The error taxonomy of the engine (the code reports these as distinct
`anyhow` messages; `storageFailure` is an error surfaced by the store). -/
inductive DbError where
  | invalidSchema
  | sheetNotFound
  | unknownColumn
  | typeMismatch
  | cycleDetected
  | storageFailure
deriving DecidableEq, Repr

/-- Column catalog lookup, from `Db::get_column_by_name` (db.rs): the
catalog rows are `(index, name, kind)` for the schema's columns in order,
with a unique name column; the query returns the id and kind for a name. -/
def findColumn (cols : List SchemaColumn) (name : String) (i : Int) :
    Option (Int × SchemaColumnKind) :=
  match cols with
  | [] => none
  | c :: rest =>
    if c.name = name then some (i, c.kind) else findColumn rest name (i + 1)

/-- Embeds `Db::get_column_by_name` on a provisioned sheet. -/
def Schema.getColumn (s : Schema) (name : String) :
    Option (Int × SchemaColumnKind) :=
  findColumn s.columns name 0

/-- Embeds `Db::new_sheet` (db.rs): reject invalid schemas, then create the three
backing tables.  `build_columns_table` populates the catalog with sqlx's
`QueryBuilder::push_values` over the schema's columns; for an empty column
list this emits `INSERT INTO ... (id, name, type) VALUES ` with no tuple,
which SQLite rejects as a syntax error, so provisioning an empty schema
fails with a storage error and the transaction rolls back. -/
def new_sheet (schema : Schema) : Except DbError SheetState :=
  if ¬ schema.is_valid then .error .invalidSchema
  else if schema.columns.isEmpty then .error .storageFailure
  else .ok ⟨schema, [], []⟩

/-- Embeds `Db::insert_cell` (db.rs), for one existing sheet (the `sheets`-table
existence check routes `SheetNotFound` upstream of this state).  Classify
the value; on the lookup path resolve and type-check the target column,
run cycle detection, null the literal and upsert the edge; on the literal
path type-check, delete any edge and upsert the literal.  Every error
leaves the state untouched (the transaction is rolled back).  Cycle
detection gets one unit of fuel per stored edge, which theorem
`detectCycle_total_of_acyclic` shows is enough whenever the acyclicity
invariant holds; the `none` branch is the code's unreachable unbounded
spin, surfaced here as a storage failure. -/
def insert_cell (s : SheetState) (cell : Cell) : Except DbError SheetState :=
  match s.schema.getColumn cell.column with
  | none => .error .unknownColumn
  | some (colId, kind) =>
    match cell.value.is_lookup with
    | some lookup =>
      match s.schema.getColumn lookup.target_col with
      | none => .error .unknownColumn
      | some (targetColId, targetKind) =>
        if kind ≠ targetKind then .error .typeMismatch
        else
          match detectCycle s.lookups (colId, cell.row)
              (targetColId, lookup.target_row) s.lookups.length with
          | some true => .error .cycleDetected
          | none => .error .storageFailure
          | some false =>
            .ok { s with
              values := perase s.values (colId, cell.row),
              lookups := pset s.lookups (colId, cell.row)
                (targetColId, lookup.target_row) }
    | none =>
      if kind ≠ SchemaColumnKind.ofValue cell.value then .error .typeMismatch
      else
        .ok { s with
          lookups := perase s.lookups (colId, cell.row),
          values := pset s.values (colId, cell.row) cell.value }

/-! ## The content resolver (`Db::get_sheet`) -/

/-- One column's `(row, value)` map; `none` values are the nulls that the
resolution loop writes for broken chains. -/

abbrev RowContent := List (Int × Option CellValue)

/-- Embeds `Db::get_column_content` for every column: for column `i`, the rows
whose `col_i` is non-NULL, as `row ↦ Some(value)`. -/
def literalContent (s : SheetState) : List RowContent :=
  (List.range s.schema.columns.length).map fun i =>
    s.values.filterMap fun cv =>
      if cv.1.1 = Int.ofNat i then some (cv.1.2, some cv.2) else none

/-- Read `regular_content[c.col].get(&c.row)` (db.rs). -/
def regAt (reg : List RowContent) (c : CellId) : Option (Option CellValue) :=
  pget (reg.getD c.1.toNat []) c.2

/-- Write `regular_content[c.col].insert(c.row, v)` (db.rs). -/
def regSet (reg : List RowContent) (c : CellId) (v : Option CellValue) :
    List RowContent :=
  reg.set c.1.toNat (pset (reg.getD c.1.toNat []) c.2 v)

/-- The inner loop of `Db::get_sheet`'s resolution: follow edges from
`cur`, pushing each visited source onto the stack and removing its entry
from the pending map, until the current cell has no pending edge.  Fuel is
one per pending entry (each step removes one). -/
def walkChain (fuel : Nat) (pending : LookupMap) (cur : CellId)
    (stack : List CellId) : List CellId × CellId × LookupMap :=
  match fuel with
  | 0 => (stack, cur, pending)
  | f + 1 =>
    match pget pending cur with
    | none => (stack, cur, pending)
    | some nxt => walkChain f (perase pending cur) nxt (cur :: stack)

/-- The outer `while !unresolved_lookups.is_empty()` loop of
`Db::get_sheet`: take a pending source, walk its chain, read the terminal
cell's literal, and (unless `no_lookup_nulls` is set) assign it to every
cell on the stack.  Fuel is one per pending entry. -/
def resolveLoop (fuel : Nat) (reg : List RowContent) (pending : LookupMap)
    (noLookupNulls : Bool) : List RowContent :=
  match fuel with
  | 0 => reg
  | f + 1 =>
    match pending with
    | [] => reg
    | (k, _) :: _ =>
      let walked := walkChain pending.length pending k []
      let val := (regAt reg walked.2.1).join
      let reg' :=
        if noLookupNulls then reg
        else walked.1.foldl (fun r c => regSet r c val) reg
      resolveLoop f reg' walked.2.2 noLookupNulls

/-- Embeds `Db::get_sheet` (db.rs) for one existing sheet: load the catalog in
declared order, each column's literal rows and the lookup set, resolve all
chains, and emit one `(name, rows)` entry per column.  (The code returns
the columns as a `HashMap` keyed by name and builds it by popping the
per-column vector in reverse order; the embedding lists the same entries
in schema order.) -/
def get_sheet (s : SheetState) (noLookupNulls : Bool) :
    List (String × RowContent) :=
  let reg := resolveLoop s.lookups.length (literalContent s) s.lookups
    noLookupNulls
  List.zipWith (fun (col : SchemaColumn) rows => (col.name, rows))
    s.schema.columns reg

/-- The output entry for cell `c`: `none` when the cell is absent from its
column's rows, `some v` when present with value-or-null `v`. -/
def outputAt (out : List (String × RowContent)) (c : CellId) :
    Option (Option CellValue) :=
  pget ((out.map Prod.snd).getD c.1.toNat []) c.2

/-- Rows of a named column of the output. -/
def outputColumn (out : List (String × RowContent)) (name : String) :
    Option RowContent :=
  pget out name

/-- Insert one row into a row-sorted list. -/
def insertRowSorted (x : Int × Option CellValue) : RowContent → RowContent
  | [] => [x]
  | y :: ys => if x.1 ≤ y.1 then x :: y :: ys else y :: insertRowSorted x ys

/-- Sort a column's rows by row number (the integration tests compare
`get_sheet` output up to this ordering, since the code's `HashMap`
iteration order is unspecified). -/
def sortRows : RowContent → RowContent
  | [] => []
  | r :: rest => insertRowSorted r (sortRows rest)

/-! ## Storage well-formedness

Invariants of the storage layer: the unique key constraints, and the fact
that every stored column id comes from the catalog (in `0 ≤ id < n`). -/

/-- Well-formedness of a sheet's backing tables. -/

def SheetState.WF (s : SheetState) : Prop :=
  NodupKeys s.values ∧ NodupKeys s.lookups ∧
  (∀ c v, pget s.values c = some v →
    0 ≤ c.1 ∧ c.1.toNat < s.schema.columns.length) ∧
  (∀ c d, pget s.lookups c = some d →
    0 ≤ c.1 ∧ c.1.toNat < s.schema.columns.length ∧
    0 ≤ d.1 ∧ d.1.toNat < s.schema.columns.length)

/-- The "at most one representation" invariant: no cell holds both a
stored literal and an outgoing lookup edge. -/
def SheetState.Exclusive (s : SheetState) : Prop :=
  ∀ c, pget s.values c = none ∨ pget s.lookups c = none

/-- The cells of a sheet: every cell holding a literal or an outgoing
edge. -/
def sheetCells (s : SheetState) : List CellId :=
  (s.values.map Prod.fst ++ s.lookups.map Prod.fst).dedup

/-- The Schema Validator's contract as the spec words it: every name
unique within the list and no name containing a double quote. -/
def ValidatorSpec (s : Schema) : Prop :=
  (s.columns.map SchemaColumn.name).Nodup ∧
    ∀ col ∈ s.columns, '"' ∉ col.name.data

/-! ## Concrete sheets for the scenario theorems -/

/-- The spec's scenario schema (restricted to the columns the scenarios
use): `A : boolean`, `B : int`. -/

def schemaAB : Schema :=
  ⟨[⟨"A", .Boolean⟩, ⟨"B", .Int⟩]⟩

/-- The freshly provisioned `A/B` sheet. -/
def emptySheetAB : SheetState :=
  ⟨schemaAB, [], []⟩

/-- Run a list of `set_cell` calls in order, stopping at the first error. -/
def runCells (s : SheetState) (cs : List Cell) : Except DbError SheetState :=
  cs.foldlM insert_cell s

/-- The state after `set_cell(B,5,lookup("B",4))`, `set_cell(B,4,
lookup("B",3))`, `set_cell(B,3,10)` (spec scenario 1). -/
def chainState : SheetState :=
  ⟨schemaAB, [((1, 3), .Int 10)], [((1, 5), (1, 4)), ((1, 4), (1, 3))]⟩

/-- The state after `set_cell(A,50,lookup("A",51))` with row 51 never
written (spec scenario 4). -/
def brokenState : SheetState :=
  ⟨schemaAB, [], [((0, 50), (0, 51))]⟩

/-! ## Theorems -/

section PointMapLemmas

variable {K V : Type} [DecidableEq K]

theorem pget_pset_self (l : List (K × V)) (k : K) (v : V) :
    pget (pset l k v) k = some v := by
  induction l with
  | nil => simp [pset, pget]
  | cons hd t ih =>
    obtain ⟨k', v'⟩ := hd
    by_cases hk : k' = k
    · subst hk
      simp [pset, pget]
    · simp [pset, pget, hk, ih]

theorem pget_pset_ne (l : List (K × V)) (k k' : K) (v : V) (h : k' ≠ k) :
    pget (pset l k v) k' = pget l k' := by
  have hne : k ≠ k' := fun h' => h h'.symm
  induction l with
  | nil => simp [pset, pget, hne]
  | cons hd t ih =>
    obtain ⟨k₀, v₀⟩ := hd
    by_cases hk : k₀ = k
    · subst hk
      simp [pset, pget, hne]
    · simp only [pset, if_neg hk, pget, ih]

theorem mem_keys_perase (l : List (K × V)) (k k' : K)
    (h : k' ∈ (perase l k).map Prod.fst) : k' ∈ l.map Prod.fst := by
  induction l with
  | nil => simp [perase] at h
  | cons hd t ih =>
    obtain ⟨k₀, v₀⟩ := hd
    by_cases hk : k₀ = k
    · subst hk
      rw [perase, if_pos rfl] at h
      simp only [List.map_cons, List.mem_cons]
      exact Or.inr h
    · rw [perase, if_neg hk] at h
      simp only [List.map_cons, List.mem_cons] at h ⊢
      exact h.imp id ih

theorem mem_keys_pset (l : List (K × V)) (k k' : K) (v : V)
    (h : k' ∈ (pset l k v).map Prod.fst) : k' ∈ l.map Prod.fst ∨ k' = k := by
  induction l with
  | nil =>
    rw [pset] at h
    simp only [List.map_cons, List.map_nil, List.mem_singleton] at h
    exact Or.inr h
  | cons hd t ih =>
    obtain ⟨k₀, v₀⟩ := hd
    by_cases hk : k₀ = k
    · subst hk
      rw [pset, if_pos rfl] at h
      simp only [List.map_cons, List.mem_cons] at h ⊢
      exact Or.inl h
    · rw [pset, if_neg hk] at h
      simp only [List.map_cons, List.mem_cons] at h ⊢
      rcases h with h | h
      · exact Or.inl (Or.inl h)
      · exact (ih h).imp Or.inr id

theorem pget_eq_none_iff (l : List (K × V)) (k : K) :
    pget l k = none ↔ k ∉ l.map Prod.fst := by
  induction l with
  | nil => simp [pget]
  | cons hd t ih =>
    obtain ⟨k₀, v₀⟩ := hd
    by_cases hk : k₀ = k
    · subst hk
      simp [pget]
    · rw [pget, if_neg hk]
      simp only [List.map_cons, List.mem_cons]
      rw [ih]
      constructor
      · intro h hcontra
        rcases hcontra with h' | h'
        · exact hk h'.symm
        · exact h h'
      · intro h
        exact fun h' => h (Or.inr h')

theorem pget_perase_self (l : List (K × V)) (k : K) (h : NodupKeys l) :
    pget (perase l k) k = none := by
  induction l with
  | nil => simp [perase, pget]
  | cons hd t ih =>
    obtain ⟨k₀, v₀⟩ := hd
    simp only [NodupKeys, List.map_cons, List.nodup_cons] at h
    by_cases hk : k₀ = k
    · subst hk
      rw [perase, if_pos rfl]
      exact (pget_eq_none_iff t k₀).2 h.1
    · simp only [perase, if_neg hk, pget, if_neg hk]
      exact ih h.2

theorem pget_perase_ne (l : List (K × V)) (k k' : K) (h : k' ≠ k) :
    pget (perase l k) k' = pget l k' := by
  induction l with
  | nil => simp [perase]
  | cons hd t ih =>
    obtain ⟨k₀, v₀⟩ := hd
    by_cases hk : k₀ = k
    · subst hk
      have : k₀ ≠ k' := fun h' => h h'.symm
      simp [perase, pget, this]
    · simp only [perase, if_neg hk, pget, ih]

theorem pget_perase_sub (l : List (K × V)) (k k' : K) (v : V) (h : NodupKeys l)
    (hget : pget (perase l k) k' = some v) : pget l k' = some v := by
  by_cases hk : k' = k
  · subst hk
    rw [pget_perase_self l k' h] at hget
    exact absurd hget (by simp)
  · rwa [pget_perase_ne l k k' hk] at hget

theorem nodupKeys_pset (l : List (K × V)) (k : K) (v : V) (h : NodupKeys l) :
    NodupKeys (pset l k v) := by
  induction l with
  | nil => simp [pset, NodupKeys]
  | cons hd t ih =>
    obtain ⟨k₀, v₀⟩ := hd
    simp only [NodupKeys, List.map_cons, List.nodup_cons] at h
    by_cases hk : k₀ = k
    · subst hk
      rw [pset, if_pos rfl]
      simp only [NodupKeys, List.map_cons, List.nodup_cons]
      exact h
    · rw [pset, if_neg hk]
      simp only [NodupKeys, List.map_cons, List.nodup_cons]
      refine ⟨fun hcontra => ?_, ih h.2⟩
      rcases mem_keys_pset t k k₀ v hcontra with h' | h'
      · exact h.1 h'
      · exact hk h'

theorem nodupKeys_perase (l : List (K × V)) (k : K) (h : NodupKeys l) :
    NodupKeys (perase l k) := by
  induction l with
  | nil => simp [perase, NodupKeys]
  | cons hd t ih =>
    obtain ⟨k₀, v₀⟩ := hd
    simp only [NodupKeys, List.map_cons, List.nodup_cons] at h
    by_cases hk : k₀ = k
    · subst hk
      rw [perase, if_pos rfl]
      exact h.2
    · rw [perase, if_neg hk]
      simp only [NodupKeys, List.map_cons, List.nodup_cons]
      exact ⟨fun hcontra => h.1 (mem_keys_perase t k k₀ hcontra), ih h.2⟩

theorem length_perase_of_mem (l : List (K × V)) (k : K) (v : V)
    (h : pget l k = some v) : (perase l k).length + 1 = l.length := by
  induction l with
  | nil => simp [pget] at h
  | cons hd t ih =>
    obtain ⟨k₀, v₀⟩ := hd
    by_cases hk : k₀ = k
    · simp [perase, hk]
    · simp only [pget, if_neg hk] at h
      simp [perase, if_neg hk, ih h]

end PointMapLemmas

section DetectCycle

/-- Erasing an entry only removes edges. -/
theorem edgeStep_perase_sub (l : LookupMap) (k : CellId) (h : NodupKeys l)
    {a b : CellId} (hab : EdgeStep (perase l k) a b) : EdgeStep l a b :=
  pget_perase_sub l k a b h hab

theorem reflTransGen_mono_perase (l : LookupMap) (k : CellId) (h : NodupKeys l)
    {a b : CellId} (hab : Relation.ReflTransGen (EdgeStep (perase l k)) a b) :
    Relation.ReflTransGen (EdgeStep l) a b :=
  Relation.ReflTransGen.mono (fun _ _ hs => edgeStep_perase_sub l k h hs) hab

theorem transGen_mono_perase (l : LookupMap) (k : CellId) (h : NodupKeys l)
    {a b : CellId} (hab : Relation.TransGen (EdgeStep (perase l k)) a b) :
    Relation.TransGen (EdgeStep l) a b :=
  Relation.TransGen.mono (fun _ _ hs => edgeStep_perase_sub l k h hs) hab

theorem acyclic_perase (l : LookupMap) (k : CellId) (hn : NodupKeys l)
    (h : Acyclic l) : Acyclic (perase l k) :=
  fun c hc => h c (transGen_mono_perase l k hn hc)

/-- After erasing `cur`, the walk from a cell reachable from `cur` is
unchanged: acyclicity keeps that walk from ever revisiting `cur`. -/
theorem detectCycleGo_perase (l : LookupMap) (hn : NodupKeys l) (ha : Acyclic l)
    (src cur : CellId) :
    ∀ (fuel : Nat) (nxt : CellId), Relation.TransGen (EdgeStep l) cur nxt →
      detectCycleGo l src nxt fuel = detectCycleGo (perase l cur) src nxt fuel := by
  intro fuel
  induction fuel with
  | zero =>
    intro nxt hreach
    have hne : nxt ≠ cur := fun h => ha cur (h ▸ hreach)
    rw [detectCycleGo, detectCycleGo, pget_perase_ne l cur nxt hne]
  | succ f ih =>
    intro nxt hreach
    have hne : nxt ≠ cur := fun h => ha cur (h ▸ hreach)
    rw [detectCycleGo, detectCycleGo, pget_perase_ne l cur nxt hne]
    cases hg : pget l nxt with
    | none => rfl
    | some nxt2 =>
      by_cases hsrc : nxt2 = src
      · simp [hsrc]
      · simp only [if_neg hsrc]
        exact ih nxt2 (hreach.tail hg)

/-- Fuel sufficiency for the walk: in an acyclic edge set, one unit of fuel
per stored edge suffices (the walk consumes a distinct edge per step). -/
theorem detectCycleGo_isSome (l : LookupMap) (hn : NodupKeys l) (ha : Acyclic l)
    (src cur : CellId) (fuel : Nat) (hfuel : l.length ≤ fuel) :
    (detectCycleGo l src cur fuel).isSome := by
  induction fuel generalizing l cur with
  | zero =>
    have : l = [] := List.length_eq_zero.1 (Nat.le_zero.1 hfuel)
    subst this
    rw [detectCycleGo]
    simp [pget]
  | succ f ih =>
    rw [detectCycleGo]
    cases hg : pget l cur with
    | none => simp
    | some nxt =>
      by_cases hsrc : nxt = src
      · simp [hsrc]
      · simp only [if_neg hsrc]
        have hstep : Relation.TransGen (EdgeStep l) cur nxt := .single hg
        rw [detectCycleGo_perase l hn ha src cur f nxt hstep]
        have hlen : (perase l cur).length + 1 = l.length :=
          length_perase_of_mem l cur nxt hg
        exact ih (perase l cur) (nodupKeys_perase l cur hn)
          (acyclic_perase l cur hn ha) nxt (by omega)

/-- A `true` answer of the walk is honest: the start reaches `src`. -/
theorem detectCycleGo_true_sound (l : LookupMap) (src : CellId) :
    ∀ (fuel : Nat) (cur : CellId), detectCycleGo l src cur fuel = some true →
      Relation.ReflTransGen (EdgeStep l) cur src := by
  intro fuel
  induction fuel with
  | zero =>
    intro cur h
    rw [detectCycleGo] at h
    cases hg : pget l cur with
    | none => rw [hg] at h; exact absurd h (by simp)
    | some nxt =>
      rw [hg] at h
      by_cases hsrc : nxt = src
      · exact Relation.ReflTransGen.single (hsrc ▸ hg)
      · simp [hsrc] at h
  | succ f ih =>
    intro cur h
    rw [detectCycleGo] at h
    cases hg : pget l cur with
    | none => rw [hg] at h; exact absurd h (by simp)
    | some nxt =>
      rw [hg] at h
      by_cases hsrc : nxt = src
      · exact Relation.ReflTransGen.single (hsrc ▸ hg)
      · simp only [if_neg hsrc] at h
        exact Relation.ReflTransGen.head hg (ih nxt h)

/-- A `false` answer of the walk is honest: the start cannot reach `src`. -/
theorem detectCycleGo_false_sound (l : LookupMap) (src : CellId) :
    ∀ (fuel : Nat) (cur : CellId), detectCycleGo l src cur fuel = some false →
      cur ≠ src → ¬ Relation.ReflTransGen (EdgeStep l) cur src := by
  intro fuel
  induction fuel with
  | zero =>
    intro cur h hne hreach
    rw [detectCycleGo] at h
    rcases Relation.ReflTransGen.cases_head hreach with heq | ⟨d, hd, _⟩
    · exact hne heq
    · rw [EdgeStep] at hd
      rw [hd] at h
      by_cases hsrc : d = src
      · simp [hsrc] at h
      · simp [hsrc] at h
  | succ f ih =>
    intro cur h hne hreach
    rw [detectCycleGo] at h
    rcases Relation.ReflTransGen.cases_head hreach with heq | ⟨d, hd, hrest⟩
    · exact hne heq
    · rw [EdgeStep] at hd
      rw [hd] at h
      by_cases hsrc : d = src
      · simp [hsrc] at h
      · simp only [if_neg hsrc] at h
        exact ih d h hsrc hrest

end DetectCycle

section AcyclicInsert

/-- Edges of `pset l src tgt`: the new `src → tgt` edge, or an old edge
from a cell other than `src`. -/
theorem edgeStep_pset_iff (l : LookupMap) (src tgt a b : CellId) :
    EdgeStep (pset l src tgt) a b ↔
      (a = src ∧ b = tgt) ∨ (a ≠ src ∧ EdgeStep l a b) := by
  unfold EdgeStep
  by_cases ha : a = src
  · subst ha
    rw [pget_pset_self]
    simp [eq_comm]
  · rw [pget_pset_ne l src a tgt ha]
    simp [ha]

/-- Any path in `pset l src tgt` either avoids the new edge entirely, or
ends with a final departure from `src`: a path of old edges from `tgt`. -/
theorem reflTransGen_pset_decompose (l : LookupMap) (src tgt : CellId)
    {a b : CellId} (h : Relation.ReflTransGen (EdgeStep (pset l src tgt)) a b) :
    Relation.ReflTransGen (EdgeStep l) a b ∨
      (Relation.ReflTransGen (EdgeStep (pset l src tgt)) a src ∧
        Relation.ReflTransGen (EdgeStep l) tgt b) := by
  induction h using Relation.ReflTransGen.head_induction_on with
  | refl => exact Or.inl Relation.ReflTransGen.refl
  | head hstep _ ih =>
    rename_i x y _
    rcases (edgeStep_pset_iff l src tgt x y).1 hstep with ⟨hx, hy⟩ | ⟨hx, hold⟩
    · subst hx
      subst hy
      rcases ih with hl | ⟨_, hdown⟩
      · exact Or.inr ⟨Relation.ReflTransGen.refl, hl⟩
      · exact Or.inr ⟨Relation.ReflTransGen.refl, hdown⟩
    · rcases ih with hl | ⟨hup, hdown⟩
      · exact Or.inl (Relation.ReflTransGen.head hold hl)
      · exact Or.inr ⟨Relation.ReflTransGen.head hstep hup, hdown⟩

/-- Inserting (or overwriting to) an edge `src → tgt` keeps the relation
acyclic provided the target cannot reach the source through old edges. -/
theorem acyclic_pset (l : LookupMap) (src tgt : CellId) (ha : Acyclic l)
    (hno : ¬ Relation.ReflTransGen (EdgeStep l) tgt src) :
    Acyclic (pset l src tgt) := by
  intro c hc
  rcases Relation.TransGen.head'_iff.1 hc with ⟨d, hd, hrest⟩
  rcases (edgeStep_pset_iff l src tgt c d).1 hd with ⟨hc', hd'⟩ | ⟨hc', hold⟩
  · -- the cycle starts with the new edge: tgt must come back to src = c
    rcases reflTransGen_pset_decompose l src tgt hrest with hl | ⟨_, hdown⟩
    · exact hno (hd' ▸ hc' ▸ hl)
    · exact hno (hc' ▸ hdown)
  · -- the cycle starts with an old edge c → d, c ≠ src
    rcases reflTransGen_pset_decompose l src tgt hrest with hl | ⟨hup, hdown⟩
    · exact ha c (Relation.TransGen.head' hold hl)
    · -- c reaches src inside the new graph; decompose that path again
      rcases reflTransGen_pset_decompose l src tgt
        (Relation.ReflTransGen.head hd hup) with hl | ⟨_, hdown'⟩
      · exact hno (hdown.trans hl)
      · exact hno hdown'

end AcyclicInsert

section Terminals

/-- In a functional graph, a walk that reaches a terminal passes through
every cell it reaches: if `c` reaches both `a` and a terminal `t`, then
`a` still reaches `t`. -/
theorem reach_term_through (l : LookupMap) {c a t : CellId}
    (hca : Relation.ReflTransGen (EdgeStep l) c a)
    (hct : Relation.ReflTransGen (EdgeStep l) c t) (hterm : pget l t = none) :
    Relation.ReflTransGen (EdgeStep l) a t := by
  induction hca using Relation.ReflTransGen.head_induction_on with
  | refl => exact hct
  | head hstep _ ih =>
    rename_i x y _
    rcases Relation.ReflTransGen.cases_head hct with heq | ⟨d, hd, hrest⟩
    · subst heq
      rw [EdgeStep, hterm] at hstep
      exact absurd hstep (by simp)
    · rw [EdgeStep] at hstep hd
      rw [hstep] at hd
      have : y = d := by injection hd
      subst this
      exact ih hrest

/-- Terminals are unique in a functional graph. -/
theorem isTerm_unique (l : LookupMap) {c t t' : CellId}
    (h : IsTerm l c t) (h' : IsTerm l c t') : t = t' := by
  have h₁ : Relation.ReflTransGen (EdgeStep l) t t' :=
    reach_term_through l h.1 h'.1 h'.2
  rcases Relation.ReflTransGen.cases_head h₁ with heq | ⟨d, hd, _⟩
  · exact heq
  · rw [EdgeStep, h.2] at hd
    exact absurd hd (by simp)

/-- In an acyclic finite functional graph every cell has a terminal. -/
theorem isTerm_exists (l : LookupMap) (hn : NodupKeys l) (ha : Acyclic l) :
    ∀ c, ∃ t, IsTerm l c t := by
  have main : ∀ (n : Nat) (l : LookupMap), l.length ≤ n → NodupKeys l →
      Acyclic l → ∀ c, ∃ t, IsTerm l c t := by
    intro n
    induction n with
    | zero =>
      intro l hlen _ _ c
      have : l = [] := List.length_eq_zero.1 (Nat.le_zero.1 hlen)
      subst this
      exact ⟨c, Relation.ReflTransGen.refl, rfl⟩
    | succ m ih =>
      intro l hlen hn ha c
      cases hg : pget l c with
      | none => exact ⟨c, Relation.ReflTransGen.refl, hg⟩
      | some d =>
        have hlen' : (perase l c).length ≤ m := by
          have := length_perase_of_mem l c d hg
          omega
        obtain ⟨t, ht⟩ := ih (perase l c) hlen' (nodupKeys_perase l c hn)
          (acyclic_perase l c hn ha) d
        refine ⟨t, Relation.ReflTransGen.head hg
          (reflTransGen_mono_perase l c hn ht.1), ?_⟩
        have htc : t ≠ c := by
          intro hcontra
          subst hcontra
          exact ha t (Relation.TransGen.head' hg
            (reflTransGen_mono_perase l t hn ht.1))
        rw [← pget_perase_ne l c t htc]
        exact ht.2
  exact main l.length l le_rfl hn ha

end Terminals

section WalkChain

/-- Full characterisation of the inner chain walk: it returns the walked
cells `w` (prepended to the incoming stack), a pending map equal to the
input minus the walked sources, and a terminal with no edge; every walked
cell lies on the chain from the start to the terminal.  Fuel is one unit
per pending entry. -/
theorem walkChain_spec :
    ∀ (f : Nat) (pend : LookupMap) (cur : CellId) (s₀ : List CellId),
    NodupKeys pend → Acyclic pend → pend.length ≤ f →
    ∃ w : List CellId,
      (walkChain f pend cur s₀).1 = w ++ s₀ ∧
      (∀ c, pget (walkChain f pend cur s₀).2.2 c =
        if c ∈ w then none else pget pend c) ∧
      (∀ c ∈ w, ∃ d, pget pend c = some d) ∧
      Relation.ReflTransGen (EdgeStep pend) cur (walkChain f pend cur s₀).2.1 ∧
      (∀ c ∈ w, Relation.ReflTransGen (EdgeStep pend) c
        (walkChain f pend cur s₀).2.1) ∧
      pget pend (walkChain f pend cur s₀).2.1 = none ∧
      pend.length = (walkChain f pend cur s₀).2.2.length + w.length ∧
      NodupKeys (walkChain f pend cur s₀).2.2 ∧
      (∀ d, pget pend cur = some d → cur ∈ w) := by
  intro f
  induction f with
  | zero =>
    intro pend cur s₀ hn _ hfuel
    have : pend = [] := List.length_eq_zero.1 (Nat.le_zero.1 hfuel)
    subst this
    refine ⟨[], rfl, fun c => by simp [walkChain], by simp,
      Relation.ReflTransGen.refl, by simp, rfl, by simp [walkChain], hn, ?_⟩
    intro d hd
    simp [pget] at hd
  | succ k ih =>
    intro pend cur s₀ hn ha hfuel
    rw [walkChain]
    cases hg : pget pend cur with
    | none =>
      refine ⟨[], rfl, fun c => by simp, by simp, Relation.ReflTransGen.refl,
        by simp, hg, by simp, hn, ?_⟩
      intro d hd
      simp at hd
    | some nxt =>
      have hn' : NodupKeys (perase pend cur) := nodupKeys_perase pend cur hn
      have ha' : Acyclic (perase pend cur) := acyclic_perase pend cur hn ha
      have hfuel' : (perase pend cur).length ≤ k := by
        have := length_perase_of_mem pend cur nxt hg
        omega
      obtain ⟨w', h1, h2, h3, h4, h5, h6, h7, h8, h9⟩ :=
        ih (perase pend cur) nxt (cur :: s₀) hn' ha' hfuel'
      set res := walkChain k (perase pend cur) nxt (cur :: s₀) with hres
      have hterm_ne : res.2.1 ≠ cur := by
        intro hcontra
        exact ha cur (Relation.TransGen.head' hg
          (reflTransGen_mono_perase pend cur hn (hcontra ▸ h4)))
      refine ⟨w' ++ [cur], by simpa using h1, ?_, ?_, ?_, ?_, ?_, ?_, h8,
        fun d _ => by simp⟩
      · intro c
        by_cases hc : c = cur
        · subst hc
          simp only [List.mem_append, List.mem_singleton, or_true, if_pos]
          rcases Classical.em (c ∈ w') with hm | hm
          · rw [h2 c]
            simp [hm]
          · rw [h2 c]
            simp only [hm, if_neg, if_false]
            exact pget_perase_self pend c hn
        · rw [h2 c, pget_perase_ne pend cur c hc]
          simp [hc]
      · intro c hc
        rcases List.mem_append.1 hc with hm | hm
        · obtain ⟨d, hd⟩ := h3 c hm
          exact ⟨d, pget_perase_sub pend cur c d hn hd⟩
        · rw [List.mem_singleton.1 hm]
          exact ⟨nxt, hg⟩
      · exact Relation.ReflTransGen.head hg
          (reflTransGen_mono_perase pend cur hn h4)
      · intro c hc
        rcases List.mem_append.1 hc with hm | hm
        · exact reflTransGen_mono_perase pend cur hn (h5 c hm)
        · rw [List.mem_singleton.1 hm]
          exact Relation.ReflTransGen.head hg
            (reflTransGen_mono_perase pend cur hn h4)
      · rw [← pget_perase_ne pend cur res.2.1 hterm_ne]
        exact h6
      · have hlen := length_perase_of_mem pend cur nxt hg
        simp only [List.length_append, List.length_singleton]
        rw [← hres]
        omega

end WalkChain

section RegLemmas

theorem getD_set_ne {α : Type} (l : List α) (i j : Nat) (a d : α)
    (h : i ≠ j) : (l.set i a).getD j d = l.getD j d := by
  induction l generalizing i j with
  | nil => simp
  | cons hd t ih =>
    cases i with
    | zero =>
      cases j with
      | zero => exact absurd rfl h
      | succ m => simp [List.set, List.getD]
    | succ n =>
      cases j with
      | zero => simp [List.set, List.getD]
      | succ m =>
        simp only [List.set, List.getD_cons_succ]
        exact ih n m (fun hc => h (by omega))

theorem getD_set_self {α : Type} (l : List α) (i : Nat) (a d : α)
    (h : i < l.length) : (l.set i a).getD i d = a := by
  induction l generalizing i with
  | nil => simp at h
  | cons hd t ih =>
    cases i with
    | zero => simp [List.set, List.getD]
    | succ n =>
      simp only [List.set, List.getD_cons_succ]
      exact ih n (by simpa using h)

theorem length_regSet (reg : List RowContent) (c : CellId)
    (v : Option CellValue) : (regSet reg c v).length = reg.length := by
  simp [regSet]

theorem regAt_regSet_self (reg : List RowContent) (c : CellId)
    (v : Option CellValue) (h0 : 0 ≤ c.1) (hlt : c.1.toNat < reg.length) :
    regAt (regSet reg c v) c = some v := by
  rw [regAt, regSet, getD_set_self _ _ _ _ hlt, pget_pset_self]

theorem regAt_regSet_ne (reg : List RowContent) (c c' : CellId)
    (v : Option CellValue) (h0 : 0 ≤ c.1) (h0' : 0 ≤ c'.1) (hne : c' ≠ c) :
    regAt (regSet reg c v) c' = regAt reg c' := by
  by_cases hcol : c.1 = c'.1
  · have htn : c.1.toNat = c'.1.toNat := by rw [hcol]
    have hrow : c'.2 ≠ c.2 := by
      intro hr
      exact hne (Prod.ext hcol.symm hr)
    rw [regAt, regSet, htn]
    rcases Nat.lt_or_ge c'.1.toNat reg.length with hlt | hge
    · rw [getD_set_self _ _ _ _ hlt, pget_pset_ne _ _ _ _ hrow, regAt]
    · rw [List.set_eq_of_length_le hge, regAt]
  · have htn : c.1.toNat ≠ c'.1.toNat := by
      intro hc
      exact hcol (by omega)
    rw [regAt, regSet, getD_set_ne _ _ _ _ _ htn, regAt]

/-- Assigning `val` to every cell on the stack, as the resolution loop
does: the cells of the stack read back `val`, all others are untouched. -/
theorem regAt_foldl_regSet (w : List CellId) (reg : List RowContent)
    (val : Option CellValue)
    (hw : ∀ c ∈ w, 0 ≤ c.1 ∧ c.1.toNat < reg.length) (c : CellId)
    (h0 : 0 ≤ c.1) :
    regAt (w.foldl (fun r k => regSet r k val) reg) c =
      if c ∈ w then some val else regAt reg c := by
  induction w generalizing reg with
  | nil => simp
  | cons a w' ih =>
    have ha := hw a (by simp)
    have hw' : ∀ k ∈ w', 0 ≤ k.1 ∧ k.1.toNat < (regSet reg a val).length := by
      intro k hk
      rw [length_regSet]
      exact hw k (by simp [hk])
    rw [List.foldl_cons, ih (regSet reg a val) hw']
    by_cases hcw : c ∈ w'
    · simp [hcw]
    · by_cases hca : c = a
      · subst hca
        simp [hcw, regAt_regSet_self reg c val ha.1 ha.2]
      · simp [hcw, hca, regAt_regSet_ne reg a c val ha.1 h0 hca]

end RegLemmas

section ResolveLoop

/-- With `no_lookup_nulls` set, the resolution loop never writes: every
chain cell (broken or not) is left out of the per-column content. -/
theorem resolveLoop_suppress (f : Nat) (reg : List RowContent) :
    ∀ pending : LookupMap, resolveLoop f reg pending true = reg := by
  induction f with
  | zero => intro pending; rfl
  | succ k ih =>
    intro pending
    cases pending with
    | nil => rfl
    | cons hd rest =>
      obtain ⟨k0, d0⟩ := hd
      rw [resolveLoop]
      exact ih _

theorem length_foldl_regSet (w : List CellId) (reg : List RowContent)
    (val : Option CellValue) :
    (w.foldl (fun r k => regSet r k val) reg).length = reg.length := by
  induction w generalizing reg with
  | nil => rfl
  | cons a w' ih => rw [List.foldl_cons, ih, length_regSet]

/-- Main invariant of the resolution loop with suppression off, relative
to the full edge set `L` and the initial literal content `R`: once the
pending map is consumed, every source cell of `L` holds its chain
terminal's literal-or-null, and every other cell is untouched. -/
theorem resolveLoop_spec (L : LookupMap) (R : List RowContent)
    (hnL : NodupKeys L) (haL : Acyclic L)
    (hbound : ∀ c d, pget L c = some d →
      0 ≤ c.1 ∧ c.1.toNat < R.length ∧ 0 ≤ d.1 ∧ d.1.toNat < R.length) :
    ∀ (f : Nat) (reg : List RowContent) (pend : LookupMap),
    NodupKeys pend →
    (∀ c d, pget pend c = some d → pget L c = some d) →
    pend.length ≤ f →
    reg.length = R.length →
    (∀ c d, pget pend c = some d → regAt reg c = regAt R c) →
    (∀ c t, pget L c ≠ none → pget pend c = none → IsTerm L c t →
      regAt reg c = some ((regAt R t).join)) →
    (∀ c, 0 ≤ c.1 → pget L c = none → regAt reg c = regAt R c) →
    ((∀ c t, pget L c ≠ none → IsTerm L c t →
        regAt (resolveLoop f reg pend false) c = some ((regAt R t).join)) ∧
      (∀ c, 0 ≤ c.1 → pget L c = none →
        regAt (resolveLoop f reg pend false) c = regAt R c) ∧
      (resolveLoop f reg pend false).length = R.length) := by
  intro f
  induction f with
  | zero =>
    intro reg pend _ _ hfuel hlen _ hB hC
    have : pend = [] := List.length_eq_zero.1 (Nat.le_zero.1 hfuel)
    subst this
    exact ⟨fun c t hc hcp => hB c t hc rfl hcp, hC, hlen⟩
  | succ k ih =>
    intro reg pend hnp hsub hfuel hlen hA hB hC
    cases hpend : pend with
    | nil =>
      subst hpend
      exact ⟨fun c t hc hcp => hB c t hc rfl hcp, hC, hlen⟩
    | cons hd rest =>
      obtain ⟨k0, d0⟩ := hd
      subst hpend
      rw [resolveLoop]
      have hap : Acyclic ((k0, d0) :: rest) := by
        intro c hc
        exact haL c (Relation.TransGen.mono (fun a b h => hsub a b h) hc)
      obtain ⟨w, hw1, hw2, hw3, hw4, hw5, hw6, hw7, hw8, hw9⟩ :=
        walkChain_spec ((k0, d0) :: rest).length ((k0, d0) :: rest) k0 []
          hnp hap le_rfl
      set pend : LookupMap := (k0, d0) :: rest with hpdef
      set walked := walkChain pend.length pend k0 [] with hwdef
      rw [List.append_nil] at hw1
      -- the head of the pending map is consumed by the walk
      have hk0 : pget pend k0 = some d0 := by
        rw [hpdef]
        simp [pget]
      have hk0w : k0 ∈ w := hw9 d0 hk0
      -- bounds for the walked cells
      have hwb : ∀ c ∈ w, 0 ≤ c.1 ∧ c.1.toNat < reg.length := by
        intro c hc
        obtain ⟨d, hd⟩ := hw3 c hc
        have := hbound c d (hsub c d hd)
        omega
      -- bounds for the terminal
      have htb : 0 ≤ walked.2.1.1 ∧ walked.2.1.1.toNat < R.length := by
        rcases Relation.ReflTransGen.cases_tail hw4 with h | ⟨p, _, hp⟩
        · rw [h]
          have := hbound k0 d0 (hsub k0 d0 hk0)
          omega
        · have := hbound p walked.2.1 (hsub p walked.2.1 hp)
          omega
      -- the common terminal of every walked cell
      obtain ⟨tstar, htstar⟩ := isTerm_exists L hnL haL walked.2.1
      have hval : (regAt reg walked.2.1).join = (regAt R tstar).join := by
        cases hLt : pget L walked.2.1 with
        | none =>
          have hts : tstar = walked.2.1 := by
            rcases Relation.ReflTransGen.cases_head htstar.1 with h | ⟨e, he, _⟩
            · exact h.symm
            · rw [EdgeStep, hLt] at he
              exact absurd he (by simp)
          rw [hC walked.2.1 htb.1 hLt, hts]
        | some e =>
          rw [hB walked.2.1 tstar (by simp [hLt]) hw6 htstar]
          simp
      have hterm_w : ∀ c ∈ w, IsTerm L c tstar := by
        intro c hc
        refine ⟨Relation.ReflTransGen.trans ?_ htstar.1, htstar.2⟩
        exact Relation.ReflTransGen.mono (fun a b h => hsub a b h) (hw5 c hc)
      -- the register after the stack assignment
      have hreg' : ∀ c, 0 ≤ c.1 →
          regAt (walked.1.foldl
            (fun r k => regSet r k ((regAt reg walked.2.1).join)) reg) c =
            if c ∈ w then some ((regAt R tstar).join) else regAt reg c := by
        intro c h0
        rw [hw1, regAt_foldl_regSet w reg _ hwb c h0, hval]
      -- invariant hypotheses for the next iteration
      have hsub' : ∀ c d, pget walked.2.2 c = some d → pget L c = some d := by
        intro c d hd
        rw [hw2 c] at hd
        by_cases hcw : c ∈ w
        · simp [hcw] at hd
        · rw [if_neg hcw] at hd
          exact hsub c d hd
      have hfuel' : walked.2.2.length ≤ k := by
        have hwlen : 0 < w.length := List.length_pos_of_mem hk0w
        omega
      have hlen' : (walked.1.foldl
          (fun r k => regSet r k ((regAt reg walked.2.1).join)) reg).length =
            R.length := by
        rw [length_foldl_regSet, hlen]
      have hA' : ∀ c d, pget walked.2.2 c = some d →
          regAt (walked.1.foldl
            (fun r k => regSet r k ((regAt reg walked.2.1).join)) reg) c =
            regAt R c := by
        intro c d hd
        have hLc := hsub' c d hd
        have h0 : 0 ≤ c.1 := (hbound c d hLc).1
        rw [hw2 c] at hd
        by_cases hcw : c ∈ w
        · simp [hcw] at hd
        · rw [if_neg hcw] at hd
          rw [hreg' c h0, if_neg hcw]
          exact hA c d hd
      have hB' : ∀ c t, pget L c ≠ none → pget walked.2.2 c = none →
          IsTerm L c t →
          regAt (walked.1.foldl
            (fun r k => regSet r k ((regAt reg walked.2.1).join)) reg) c =
            some ((regAt R t).join) := by
        intro c t hLc hpc hct
        obtain ⟨d, hd⟩ : ∃ d, pget L c = some d := by
          cases h : pget L c with
          | none => exact absurd h hLc
          | some d => exact ⟨d, rfl⟩
        have h0 : 0 ≤ c.1 := (hbound c d hd).1
        rw [hreg' c h0]
        by_cases hcw : c ∈ w
        · rw [if_pos hcw, isTerm_unique L hct (hterm_w c hcw)]
        · rw [if_neg hcw]
          rw [hw2 c, if_neg hcw] at hpc
          exact hB c t hLc hpc hct
      have hC' : ∀ c, 0 ≤ c.1 → pget L c = none →
          regAt (walked.1.foldl
            (fun r k => regSet r k ((regAt reg walked.2.1).join)) reg) c =
            regAt R c := by
        intro c h0 hLc
        have hcw : c ∉ w := by
          intro hc
          obtain ⟨d, hd⟩ := hw3 c hc
          rw [hsub c d hd] at hLc
          exact absurd hLc (by simp)
        rw [hreg' c h0, if_neg hcw]
        exact hC c h0 hLc
      exact ih _ walked.2.2 hw8 hsub' hfuel' hlen' hA' hB' hC'

end ResolveLoop

section SheetLemmas

theorem length_literalContent (s : SheetState) :
    (literalContent s).length = s.schema.columns.length := by
  simp [literalContent]

theorem pget_filterMap_col (vals : List (CellId × CellValue)) (c : CellId) :
    pget (vals.filterMap fun cv =>
      if cv.1.1 = c.1 then some (cv.1.2, some cv.2) else none) c.2 =
      (pget vals c).map some := by
  obtain ⟨c1, c2⟩ := c
  induction vals with
  | nil => simp [pget]
  | cons cv rest ih =>
    obtain ⟨⟨i, r⟩, v⟩ := cv
    by_cases hcol : i = c1
    · subst hcol
      by_cases hrow : r = c2
      · subst hrow
        simp [List.filterMap_cons, pget]
      · simp only [List.filterMap_cons, if_pos rfl, pget]
        rw [if_neg hrow, if_neg (by simp [hrow] : ¬ ((i, r) = (i, c2)))]
        exact ih
    · simp only [List.filterMap_cons, if_neg hcol, pget]
      rw [if_neg (by simp [hcol] : ¬ ((i, r) = (c1, c2)))]
      exact ih

theorem getD_map_range {α : Type} (f : Nat → α) (n i : Nat) (d : α)
    (h : i < n) : ((List.range n).map f).getD i d = f i := by
  rw [List.getD_eq_getElem?_getD, List.getElem?_map, List.getElem?_range h]
  rfl

/-- Reading the initial per-column content at a cell address is reading
the value table: `get_column_content` keeps exactly the non-NULL cells,
as `Some(value)`. -/
theorem regAt_literalContent (s : SheetState) (c : CellId) (h0 : 0 ≤ c.1)
    (hlt : c.1.toNat < s.schema.columns.length) :
    regAt (literalContent s) c = (pget s.values c).map some := by
  rw [regAt, literalContent, getD_map_range _ _ _ _ hlt]
  have : Int.ofNat c.1.toNat = c.1 := Int.toNat_of_nonneg h0
  rw [this]
  exact pget_filterMap_col s.values c

theorem regAt_out_of_range (reg : List RowContent) (c : CellId)
    (h : reg.length ≤ c.1.toNat) : regAt reg c = none := by
  rw [regAt, List.getD_eq_getElem?_getD, List.getElem?_eq_none (by simpa using h)]
  rfl

/-- Every entry of a filtered column is `some`-shaped. -/
theorem pget_filterMap_col_shape (vals : List (CellId × CellValue)) (j row : Int)
    (u : Option CellValue)
    (h : pget (vals.filterMap fun cv =>
      if cv.1.1 = j then some (cv.1.2, some cv.2) else none) row = some u) :
    ∃ v, u = some v := by
  induction vals with
  | nil => simp [pget] at h
  | cons cv rest ih =>
    by_cases hcol : cv.1.1 = j
    · rw [List.filterMap_cons, if_pos hcol] at h
      by_cases hrow : cv.1.2 = row
      · rw [pget, if_pos hrow] at h
        exact ⟨cv.2, by injection h with h'; rw [← h']⟩
      · rw [pget, if_neg hrow] at h
        exact ih h
    · rw [List.filterMap_cons, if_neg hcol] at h
      exact ih h

/-- Entries of the initial per-column content are always `some`-shaped:
nulls can only come from the resolution loop. -/
theorem regAt_literalContent_shape (s : SheetState) (c : CellId) :
    regAt (literalContent s) c = none ∨
      ∃ v, regAt (literalContent s) c = some (some v) := by
  rcases Nat.lt_or_ge c.1.toNat (literalContent s).length with hlt | hge
  · rw [regAt, literalContent]
    rw [length_literalContent] at hlt
    rw [getD_map_range _ _ _ _ hlt]
    cases hres : pget (s.values.filterMap fun cv =>
        if cv.1.1 = Int.ofNat c.1.toNat then some (cv.1.2, some cv.2)
        else none) c.2 with
    | none => exact Or.inl rfl
    | some u =>
      obtain ⟨v, hv⟩ := pget_filterMap_col_shape _ _ _ _ hres
      exact Or.inr ⟨v, by rw [hv]⟩
  · exact Or.inl (regAt_out_of_range _ _ hge)

end SheetLemmas

theorem findColumn_bounds (cols : List SchemaColumn) (name : String) :
    ∀ (j : Int), 0 ≤ j → ∀ i k, findColumn cols name j = some (i, k) →
      0 ≤ i ∧ i.toNat < j.toNat + cols.length := by
  induction cols with
  | nil =>
    intro j _ i k h
    simp [findColumn] at h
  | cons col rest ih =>
    intro j hj i k h
    rw [findColumn] at h
    by_cases hname : col.name = name
    · rw [if_pos hname] at h
      injection h with h'
      injection h' with h1 h2
      subst h1
      simp only [List.length_cons]
      omega
    · rw [if_neg hname] at h
      have := ih (j + 1) (by omega) i k h
      have hjt : (j + 1).toNat = j.toNat + 1 := by omega
      simp only [List.length_cons]
      omega

theorem getColumn_bounds (sch : Schema) (name : String) (i : Int)
    (k : SchemaColumnKind) (h : sch.getColumn name = some (i, k)) :
    0 ≤ i ∧ i.toNat < sch.columns.length := by
  have := findColumn_bounds sch.columns name 0 le_rfl i k h
  simpa using this

theorem map_snd_zipWith_names (cols : List SchemaColumn)
    (reg : List RowContent) (h : cols.length = reg.length) :
    (List.zipWith (fun (col : SchemaColumn) rows => (col.name, rows))
      cols reg).map Prod.snd = reg := by
  induction cols generalizing reg with
  | nil =>
    cases reg with
    | nil => rfl
    | cons _ _ => simp at h
  | cons col rest ih =>
    cases reg with
    | nil => simp at h
    | cons r rrest =>
      simp only [List.zipWith_cons_cons, List.map_cons]
      rw [ih rrest (by simpa using h)]

theorem map_fst_zipWith_names (cols : List SchemaColumn)
    (reg : List RowContent) (h : cols.length = reg.length) :
    (List.zipWith (fun (col : SchemaColumn) rows => (col.name, rows))
      cols reg).map Prod.fst = cols.map SchemaColumn.name := by
  induction cols generalizing reg with
  | nil => rfl
  | cons col rest ih =>
    cases reg with
    | nil => simp at h
    | cons r rrest =>
      simp only [List.zipWith_cons_cons, List.map_cons]
      rw [ih rrest (by simpa using h)]

/-- The resolution loop never changes the number of columns. -/
theorem length_resolveLoop (f : Nat) :
    ∀ (reg : List RowContent) (pend : LookupMap) (b : Bool),
    (resolveLoop f reg pend b).length = reg.length := by
  induction f with
  | zero => intro reg pend b; rfl
  | succ k ih =>
    intro reg pend b
    cases pend with
    | nil => rfl
    | cons hd rest =>
      obtain ⟨k0, d0⟩ := hd
      rw [resolveLoop, ih]
      rcases b with _ | _
      · simp [length_foldl_regSet]
      · simp

/-- Reading the output of `get_sheet` at a cell address is reading the
resolved per-column content. -/
theorem outputAt_get_sheet (s : SheetState) (b : Bool) (c : CellId) :
    outputAt (get_sheet s b) c =
      regAt (resolveLoop s.lookups.length (literalContent s) s.lookups b) c := by
  rw [outputAt, get_sheet, regAt]
  congr 1
  rw [map_snd_zipWith_names _ _
    (by rw [length_resolveLoop, length_literalContent])]

section GetSheetTheorems

/-- Bounds for the terminal of a chain that starts at an edge source. -/
theorem isTerm_bounds (s : SheetState) (hwf : s.WF) (c t : CellId)
    (hc : pget s.lookups c ≠ none) (ht : IsTerm s.lookups c t) :
    0 ≤ t.1 ∧ t.1.toNat < s.schema.columns.length := by
  rcases Relation.ReflTransGen.cases_tail ht.1 with h | ⟨p, _, hp⟩
  · rw [h] at ht
    exact absurd ht.2 hc
  · have := hwf.2.2.2 p t hp
    omega

/-- Resolution result of `get_sheet` with suppression off: every chain
cell reads its terminal's literal-or-null, every other cell reads its own
literal. -/
theorem get_sheet_resolves (s : SheetState) (hwf : s.WF)
    (ha : Acyclic s.lookups) :
    (∀ c t, pget s.lookups c ≠ none → IsTerm s.lookups c t →
      outputAt (get_sheet s false) c = some (pget s.values t)) ∧
    (∀ c, 0 ≤ c.1 → pget s.lookups c = none →
      outputAt (get_sheet s false) c = (pget s.values c).map some) := by
  obtain ⟨hnv, hnl, hbv, hbl⟩ := hwf
  have hRlen : (literalContent s).length = s.schema.columns.length :=
    length_literalContent s
  have hbound : ∀ c d, pget s.lookups c = some d →
      0 ≤ c.1 ∧ c.1.toNat < (literalContent s).length ∧
      0 ≤ d.1 ∧ d.1.toNat < (literalContent s).length := by
    intro c d hd
    have := hbl c d hd
    omega
  obtain ⟨hres1, hres2, _⟩ := resolveLoop_spec s.lookups (literalContent s)
    hnl ha hbound s.lookups.length (literalContent s) s.lookups hnl
    (fun c d hd => hd) le_rfl rfl (fun c d _ => rfl)
    (fun c t hc hcp _ => absurd hcp hc)
    (fun c _ _ => rfl)
  constructor
  · intro c t hc ht
    rw [outputAt_get_sheet, hres1 c t hc ht]
    have htb := isTerm_bounds s ⟨hnv, hnl, hbv, hbl⟩ c t hc ht
    rw [regAt_literalContent s t htb.1 htb.2]
    cases pget s.values t with
    | none => rfl
    | some v => rfl
  · intro c h0 hc
    rw [outputAt_get_sheet, hres2 c h0 hc]
    rcases Nat.lt_or_ge c.1.toNat s.schema.columns.length with hlt | hge
    · exact regAt_literalContent s c h0 hlt
    · rw [regAt_out_of_range _ _ (by omega)]
      cases hv : pget s.values c with
      | none => rfl
      | some v =>
        have := hbv c v hv
        omega

/-- With suppression on, `get_sheet` returns exactly the stored literals:
every cell of every lookup chain is omitted. -/
theorem get_sheet_suppressed (s : SheetState) (hwf : s.WF) (c : CellId)
    (h0 : 0 ≤ c.1) :
    outputAt (get_sheet s true) c = (pget s.values c).map some := by
  obtain ⟨hnv, hnl, hbv, hbl⟩ := hwf
  rw [outputAt_get_sheet, resolveLoop_suppress]
  rcases Nat.lt_or_ge c.1.toNat s.schema.columns.length with hlt | hge
  · exact regAt_literalContent s c h0 hlt
  · rw [regAt_out_of_range _ _ (by rw [length_literalContent]; omega)]
    cases hv : pget s.values c with
    | none => rfl
    | some v =>
      have := hbv c v hv
      omega

/-- A null output value can only come from an unsuppressed broken chain. -/
theorem output_null_only_broken (s : SheetState) (hwf : s.WF)
    (ha : Acyclic s.lookups) (b : Bool) (c : CellId) (h0 : 0 ≤ c.1)
    (h : outputAt (get_sheet s b) c = some none) :
    b = false ∧ ∃ t, pget s.lookups c ≠ none ∧ IsTerm s.lookups c t ∧
      pget s.values t = none := by
  rcases b with _ | _
  · refine ⟨rfl, ?_⟩
    cases hc : pget s.lookups c with
    | none =>
      rw [(get_sheet_resolves s hwf ha).2 c h0 hc] at h
      cases hv : pget s.values c with
      | none => rw [hv] at h; exact absurd h (by simp)
      | some v => rw [hv] at h; simp at h
    | some d =>
      obtain ⟨t, ht⟩ := isTerm_exists s.lookups hwf.2.1 ha c
      have hc' : pget s.lookups c ≠ none := by rw [hc]; simp
      refine ⟨t, by simp, ht, ?_⟩
      rw [(get_sheet_resolves s hwf ha).1 c t hc' ht] at h
      injection h
  · rw [get_sheet_suppressed s hwf c h0] at h
    cases hv : pget s.values c with
    | none => rw [hv] at h; exact absurd h (by simp)
    | some v => rw [hv] at h; simp at h

/-- The output has one entry per schema column, keyed by its name, in
declared order. -/
theorem get_sheet_column_names (s : SheetState) (b : Bool) :
    (get_sheet s b).map Prod.fst = s.schema.columns.map SchemaColumn.name := by
  rw [get_sheet]
  exact map_fst_zipWith_names _ _
    (by rw [length_resolveLoop, length_literalContent])

end GetSheetTheorems

section InsertCell

theorem pget_pset_cases {K V : Type} [DecidableEq K] (l : List (K × V))
    (k c : K) (v u : V) (h : pget (pset l k v) c = some u) :
    (c = k ∧ u = v) ∨ pget l c = some u := by
  by_cases hc : c = k
  · subst hc
    rw [pget_pset_self] at h
    injection h with h'
    exact Or.inl ⟨rfl, h'.symm⟩
  · rw [pget_pset_ne l k c v hc] at h
    exact Or.inr h

/-- Elimination principle for a successful `insert_cell`: either the
literal path ran (type check passed; edge deleted, literal upserted) or
the lookup path ran (target resolved and type-checked, no cycle; literal
nulled, edge upserted). -/
theorem insert_cell_ok_cases (s : SheetState) (cell : Cell) (s' : SheetState)
    (h : insert_cell s cell = .ok s') :
    (∃ colId kind, s.schema.getColumn cell.column = some (colId, kind) ∧
      cell.value.is_lookup = none ∧
      kind = SchemaColumnKind.ofValue cell.value ∧
      s' = { s with lookups := perase s.lookups (colId, cell.row),
                    values := pset s.values (colId, cell.row) cell.value }) ∨
    (∃ colId kind lookup targetColId targetKind,
      s.schema.getColumn cell.column = some (colId, kind) ∧
      cell.value.is_lookup = some lookup ∧
      s.schema.getColumn lookup.target_col = some (targetColId, targetKind) ∧
      kind = targetKind ∧
      detectCycle s.lookups (colId, cell.row) (targetColId, lookup.target_row)
        s.lookups.length = some false ∧
      s' = { s with values := perase s.values (colId, cell.row),
                    lookups := pset s.lookups (colId, cell.row)
                      (targetColId, lookup.target_row) }) := by
  rw [insert_cell] at h
  cases hcol : s.schema.getColumn cell.column with
  | none => rw [hcol] at h; exact absurd h (by simp)
  | some ck =>
    obtain ⟨colId, kind⟩ := ck
    rw [hcol] at h
    dsimp only at h
    cases hlk : cell.value.is_lookup with
    | none =>
      rw [hlk] at h
      dsimp only at h
      by_cases hkind : kind = SchemaColumnKind.ofValue cell.value
      · left
        refine ⟨colId, kind, rfl, rfl, hkind, ?_⟩
        rw [if_neg (by simp [hkind])] at h
        injection h with h'
        exact h'.symm
      · rw [if_pos (by simp [hkind])] at h
        exact absurd h (by simp)
    | some lookup =>
      rw [hlk] at h
      dsimp only at h
      cases htcol : s.schema.getColumn lookup.target_col with
      | none => rw [htcol] at h; exact absurd h (by simp)
      | some tck =>
        obtain ⟨targetColId, targetKind⟩ := tck
        rw [htcol] at h
        dsimp only at h
        by_cases hkind : kind = targetKind
        · rw [if_neg (by simp [hkind])] at h
          cases hdet : detectCycle s.lookups (colId, cell.row)
              (targetColId, lookup.target_row) s.lookups.length with
          | none => rw [hdet] at h; exact absurd h (by simp)
          | some b =>
            cases b with
            | true => rw [hdet] at h; exact absurd h (by simp)
            | false =>
              right
              refine ⟨colId, kind, lookup, targetColId, targetKind,
                rfl, rfl, htcol, hkind, hdet, ?_⟩
              rw [hdet] at h
              injection h with h'
              exact h'.symm
        · rw [if_pos (by simp [hkind])] at h
          exact absurd h (by simp)

/-- Well-formedness is preserved by every successful cell mutation. -/
theorem insert_cell_preserves_WF (s : SheetState) (cell : Cell)
    (s' : SheetState) (h : insert_cell s cell = .ok s') (hwf : s.WF) :
    s'.WF := by
  obtain ⟨hnv, hnl, hbv, hbl⟩ := hwf
  rcases insert_cell_ok_cases s cell s' h with
    ⟨colId, kind, hcol, _, _, hs'⟩ |
    ⟨colId, kind, lookup, targetColId, targetKind, hcol, _, htcol, _, _, hs'⟩
  · subst hs'
    have hb := getColumn_bounds s.schema cell.column colId kind hcol
    refine ⟨nodupKeys_pset _ _ _ hnv, nodupKeys_perase _ _ hnl, ?_, ?_⟩
    · intro c v hv
      rcases pget_pset_cases _ _ _ _ _ hv with ⟨hc, _⟩ | hold
      · subst hc
        exact hb
      · exact hbv c v hold
    · intro c d hd
      exact hbl c d (pget_perase_sub _ _ _ _ hnl hd)
  · subst hs'
    have hb := getColumn_bounds s.schema cell.column colId kind hcol
    have htb := getColumn_bounds s.schema lookup.target_col targetColId
      targetKind htcol
    refine ⟨nodupKeys_perase _ _ hnv, nodupKeys_pset _ _ _ hnl, ?_, ?_⟩
    · intro c v hv
      exact hbv c v (pget_perase_sub _ _ _ _ hnv hv)
    · intro c d hd
      rcases pget_pset_cases _ _ _ _ _ hd with ⟨hc, hdv⟩ | hold
      · subst hc
        subst hdv
        exact ⟨hb.1, hb.2, htb.1, htb.2⟩
      · exact hbl c d hold

/-- Cycle detection reporting no cycle is honest. -/
theorem detectCycle_false_no_path (l : LookupMap) (src tgt : CellId)
    (fuel : Nat) (h : detectCycle l src tgt fuel = some false) :
    ¬ Relation.ReflTransGen (EdgeStep l) tgt src := by
  rw [detectCycle] at h
  by_cases heq : src = tgt
  · rw [if_pos heq] at h
    exact absurd h (by simp)
  · rw [if_neg heq] at h
    exact detectCycleGo_false_sound l src fuel tgt h (fun hc => heq hc.symm)

/-- The lookup-edge relation stays acyclic across every successful cell
mutation. -/
theorem insert_cell_preserves_acyclic (s : SheetState) (cell : Cell)
    (s' : SheetState) (h : insert_cell s cell = .ok s')
    (hn : NodupKeys s.lookups) (ha : Acyclic s.lookups) :
    Acyclic s'.lookups := by
  rcases insert_cell_ok_cases s cell s' h with
    ⟨colId, kind, _, _, _, hs'⟩ |
    ⟨colId, kind, lookup, targetColId, targetKind, _, _, _, _, hdet, hs'⟩
  · subst hs'
    exact acyclic_perase _ _ hn ha
  · subst hs'
    exact acyclic_pset _ _ _ ha (detectCycle_false_no_path _ _ _ _ hdet)

end InsertCell

section Exclusivity

/-- Representation exclusivity is preserved, and each write removes the
other representation at its cell. -/
theorem insert_cell_preserves_exclusive (s : SheetState) (cell : Cell)
    (s' : SheetState) (h : insert_cell s cell = .ok s') (hwf : s.WF)
    (hex : s.Exclusive) : s'.Exclusive := by
  obtain ⟨hnv, hnl, _, _⟩ := hwf
  rcases insert_cell_ok_cases s cell s' h with
    ⟨colId, kind, _, _, _, hs'⟩ |
    ⟨colId, kind, lookup, targetColId, targetKind, _, _, _, _, _, hs'⟩
  · subst hs'
    intro c
    by_cases hc : c = (colId, cell.row)
    · subst hc
      exact Or.inr (pget_perase_self _ _ hnl)
    · rw [pget_pset_ne _ _ _ _ hc, pget_perase_ne _ _ _ hc]
      exact hex c
  · subst hs'
    intro c
    by_cases hc : c = (colId, cell.row)
    · subst hc
      exact Or.inl (pget_perase_self _ _ hnv)
    · rw [pget_pset_ne _ _ _ _ hc, pget_perase_ne _ _ _ hc]
      exact hex c

/-- A successful literal write leaves no outgoing edge at its cell, and a
successful lookup write leaves no stored literal at its cell. -/
theorem insert_cell_removes_other (s : SheetState) (cell : Cell)
    (s' : SheetState) (h : insert_cell s cell = .ok s') (hwf : s.WF) :
    (∀ colId kind, s.schema.getColumn cell.column = some (colId, kind) →
      (cell.value.is_lookup = none →
        pget s'.lookups (colId, cell.row) = none ∧
        pget s'.values (colId, cell.row) = some cell.value) ∧
      (∀ lookup, cell.value.is_lookup = some lookup →
        pget s'.values (colId, cell.row) = none)) := by
  obtain ⟨hnv, hnl, _, _⟩ := hwf
  intro colId kind hcol
  rcases insert_cell_ok_cases s cell s' h with
    ⟨colId', kind', hcol', hlk, _, hs'⟩ |
    ⟨colId', kind', lookup', targetColId, targetKind, hcol', hlk, _, _, _, hs'⟩
  · rw [hcol] at hcol'
    injection hcol' with h'
    injection h' with h1 _
    subst h1
    subst hs'
    constructor
    · intro _
      exact ⟨pget_perase_self _ _ hnl, pget_pset_self _ _ _⟩
    · intro lookup hlook
      rw [hlk] at hlook
      exact absurd hlook (by simp)
  · rw [hcol] at hcol'
    injection hcol' with h'
    injection h' with h1 _
    subst h1
    subst hs'
    constructor
    · intro hnone
      rw [hlk] at hnone
      exact absurd hnone (by simp)
    · intro lookup _
      exact pget_perase_self _ _ hnv

end Exclusivity

section CycleError

/-- Cycle detection is complete under acyclicity: if the new edge's target
reaches its source, the walk reports the cycle (with one unit of fuel per
stored edge). -/
theorem detectCycle_complete (l : LookupMap) (hn : NodupKeys l)
    (ha : Acyclic l) (src tgt : CellId)
    (h : Relation.ReflTransGen (EdgeStep l) tgt src) :
    detectCycle l src tgt l.length = some true := by
  rw [detectCycle]
  by_cases heq : src = tgt
  · rw [if_pos heq]
  · rw [if_neg heq]
    have hs := detectCycleGo_isSome l hn ha src tgt l.length le_rfl
    cases hres : detectCycleGo l src tgt l.length with
    | none => rw [hres] at hs; exact absurd hs (by simp)
    | some b =>
      cases b with
      | true => rfl
      | false =>
        exact absurd h (detectCycleGo_false_sound l src l.length tgt hres
          (fun hc => heq hc.symm))

/-- A `set_cell` whose (well-typed, resolvable) lookup would close a cycle
fails with `CycleDetected`. -/
theorem insert_cell_cycle_error (s : SheetState) (cell : Cell)
    (hn : NodupKeys s.lookups) (ha : Acyclic s.lookups)
    (colId kind targetColId targetKind : _) (lookup : LookupCellValue)
    (hcol : s.schema.getColumn cell.column = some (colId, kind))
    (hlk : cell.value.is_lookup = some lookup)
    (htcol : s.schema.getColumn lookup.target_col =
      some (targetColId, targetKind))
    (hkind : kind = targetKind)
    (hcycle : Relation.ReflTransGen (EdgeStep s.lookups)
      (targetColId, lookup.target_row) (colId, cell.row)) :
    insert_cell s cell = .error .cycleDetected := by
  rw [insert_cell, hcol]
  dsimp only
  rw [hlk]
  dsimp only
  rw [htcol]
  dsimp only
  rw [if_neg (by simp [hkind])]
  rw [detectCycle_complete s.lookups hn ha _ _ hcycle]

end CycleError

section TypeMismatch

/-- A literal whose runtime kind differs from the column's declared kind is
rejected with `TypeMismatch`. -/
theorem insert_cell_literal_type_error (s : SheetState) (cell : Cell)
    (colId : Int) (kind : SchemaColumnKind)
    (hcol : s.schema.getColumn cell.column = some (colId, kind))
    (hlk : cell.value.is_lookup = none)
    (hkind : kind ≠ SchemaColumnKind.ofValue cell.value) :
    insert_cell s cell = .error .typeMismatch := by
  rw [insert_cell, hcol]
  dsimp only
  rw [hlk]
  dsimp only
  rw [if_pos (by simp [hkind])]

/-- A lookup whose target column's declared kind differs from the source
column's declared kind is rejected with `TypeMismatch`. -/
theorem insert_cell_lookup_type_error (s : SheetState) (cell : Cell)
    (colId targetColId : Int) (kind targetKind : SchemaColumnKind)
    (lookup : LookupCellValue)
    (hcol : s.schema.getColumn cell.column = some (colId, kind))
    (hlk : cell.value.is_lookup = some lookup)
    (htcol : s.schema.getColumn lookup.target_col =
      some (targetColId, targetKind))
    (hkind : kind ≠ targetKind) :
    insert_cell s cell = .error .typeMismatch := by
  rw [insert_cell, hcol]
  dsimp only
  rw [hlk]
  dsimp only
  rw [htcol]
  dsimp only
  rw [if_pos (by simp [hkind])]

end TypeMismatch

section Termination

theorem lookups_length_le_sheetCells (s : SheetState)
    (hn : NodupKeys s.lookups) : s.lookups.length ≤ (sheetCells s).length := by
  have hsub : s.lookups.map Prod.fst ⊆ sheetCells s := by
    intro a ha
    exact List.mem_dedup.2 (List.mem_append.2 (Or.inr ha))
  have hlen : (s.lookups.map Prod.fst).length ≤ (sheetCells s).length :=
    (List.subperm_of_subset hn hsub).length_le
  simpa using hlen

/-- The cycle-detection walk terminates within one edge-lookup per cell of
the sheet, whenever the standing acyclicity invariant holds. -/
theorem detectCycle_total_of_acyclic (s : SheetState)
    (hn : NodupKeys s.lookups) (ha : Acyclic s.lookups) (src tgt : CellId) :
    (detectCycle s.lookups src tgt (sheetCells s).length).isSome ∧
      s.lookups.length ≤ (sheetCells s).length := by
  refine ⟨?_, lookups_length_le_sheetCells s hn⟩
  rw [detectCycle]
  by_cases heq : src = tgt
  · rw [if_pos heq]; rfl
  · rw [if_neg heq]
    exact detectCycleGo_isSome s.lookups hn ha src tgt _
      (lookups_length_le_sheetCells s hn)

end Termination

section ScannerLemmas

variable {p : Char → Bool}

theorem dropWhile_split (p : Char → Bool) (l : List Char) :
    l = l.takeWhile p ++ l.dropWhile p ∧ ∀ c ∈ l.takeWhile p, p c = true :=
  ⟨(List.takeWhile_append_dropWhile p l).symm, fun _ h => List.mem_takeWhile_imp h⟩

theorem dropWhile_ws_left (p : Char → Bool) (w t : List Char)
    (hw : ∀ c ∈ w, p c = true) : (w ++ t).dropWhile p = t.dropWhile p := by
  induction w with
  | nil => rfl
  | cons c w' ih =>
    rw [List.cons_append, List.dropWhile_cons, if_pos (hw c (by simp))]
    exact ih (fun c' hc' => hw c' (by simp [hc']))

theorem dropWhile_head_false (p : Char → Bool) (c : Char) (t : List Char)
    (hc : p c = false) : (c :: t).dropWhile p = c :: t := by
  rw [List.dropWhile_cons, hc]
  simp

theorem takeWhile_stop_at (p : Char → Bool) (a : List Char) (c : Char)
    (t : List Char) (ha : ∀ x ∈ a, p x = true) (hc : p c = false) :
    (a ++ c :: t).takeWhile p = a ∧ (a ++ c :: t).dropWhile p = c :: t := by
  induction a with
  | nil =>
    constructor
    · rw [List.nil_append, List.takeWhile_cons, hc]
      simp
    · rw [List.nil_append]
      exact dropWhile_head_false p c t hc
  | cons x a' ih =>
    obtain ⟨ih1, ih2⟩ := ih (fun y hy => ha y (by simp [hy]))
    constructor
    · rw [List.cons_append, List.takeWhile_cons, ha x (by simp)]
      simp [ih1]
    · rw [List.cons_append, List.dropWhile_cons, ha x (by simp)]
      simp [ih2]

theorem head_dropWhile_false (p : Char → Bool) (l : List Char) (c : Char)
    (t : List Char) (h : l.dropWhile p = c :: t) : p c = false := by
  induction l with
  | nil => simp at h
  | cons x l' ih =>
    rw [List.dropWhile_cons] at h
    by_cases hx : p x
    · rw [if_pos hx] at h
      exact ih h
    · rw [if_neg hx] at h
      injection h with h1 _
      subst h1
      exact Bool.of_not_eq_true hx

/-- A decimal digit is not regex whitespace. -/
theorem digit_not_ws (c : Char) (h : isDigitChar c = true) :
    isWsChar c = false := by
  by_contra hws
  rw [Bool.not_eq_false, isWsChar] at hws
  simp only [Bool.or_eq_true, Bool.and_eq_true, decide_eq_true_eq] at hws
  rw [isDigitChar] at h
  simp only [Bool.and_eq_true, decide_eq_true_eq] at h
  obtain ⟨h1, h2⟩ := h
  rcases hws with
    (((((((((((((rfl | rfl) | rfl) | rfl) | rfl) | rfl) | rfl) | rfl) | rfl) | ⟨hr1, hr2⟩) | rfl) | rfl) | rfl) | rfl) | rfl
  all_goals
    first
    | exact absurd h1 (by decide)
    | exact absurd h2 (by decide)
    | exact absurd (le_trans hr1 h2) (by decide)

end ScannerLemmas

section ParserCorrectness

theorem ws_not_digit (c : Char) (h : isWsChar c = true) :
    isDigitChar c = false := by
  cases hd : isDigitChar c with
  | false => rfl
  | true =>
    rw [digit_not_ws c hd] at h
    exact absurd h (by simp)

/-- Soundness of the body scanner: a successful parse exhibits the
regex decomposition of the input. -/
theorem parseLookupBody_sound (cs name digits : List Char)
    (h : parseLookupBody cs = some (name, digits)) :
    ∃ w1 w2 w3 w4 : List Char,
      cs = w1 ++ ['"'] ++ name ++ ['"'] ++ w2 ++ [','] ++ w3 ++ digits ++
        w4 ++ [')'] ∧
      (∀ c ∈ w1, isWsChar c = true) ∧ (∀ c ∈ w2, isWsChar c = true) ∧
      (∀ c ∈ w3, isWsChar c = true) ∧ (∀ c ∈ w4, isWsChar c = true) ∧
      name ≠ [] ∧ (∀ c ∈ name, c ≠ '"') ∧
      digits ≠ [] ∧ (∀ c ∈ digits, isDigitChar c = true) := by
  rw [parseLookupBody] at h
  obtain ⟨hsplit1, hws1⟩ := dropWhile_split isWsChar cs
  cases hcs0 : cs.dropWhile isWsChar with
  | nil => rw [hcs0] at h; exact absurd h (by simp)
  | cons c cs1 =>
    rw [hcs0] at h hsplit1
    dsimp only at h
    by_cases hc : c = '"'
    · rw [if_pos hc] at h
      subst hc
      obtain ⟨hsplit2, hnq⟩ := dropWhile_split isNotQuote cs1
      by_cases hemp : (cs1.takeWhile isNotQuote).isEmpty
      · rw [if_pos hemp] at h; exact absurd h (by simp)
      · rw [if_neg hemp] at h
        cases hcs2 : cs1.dropWhile isNotQuote with
        | nil => rw [hcs2] at h; exact absurd h (by simp)
        | cons c2 cs3 =>
          rw [hcs2] at h hsplit2
          dsimp only at h
          have hc2 : c2 = '"' := by
            have := head_dropWhile_false isNotQuote cs1 c2 cs3 hcs2
            rw [isNotQuote] at this
            simpa using this
          rw [if_pos hc2] at h
          subst hc2
          obtain ⟨hsplit3, hws2⟩ := dropWhile_split isWsChar cs3
          cases hcs4 : cs3.dropWhile isWsChar with
          | nil => rw [hcs4] at h; exact absurd h (by simp)
          | cons c4 cs5 =>
            rw [hcs4] at h hsplit3
            dsimp only at h
            by_cases hc4 : c4 = ','
            · rw [if_pos hc4] at h
              subst hc4
              obtain ⟨hsplit4, hws3⟩ := dropWhile_split isWsChar cs5
              obtain ⟨hsplit5, hdig⟩ :=
                dropWhile_split isDigitChar (cs5.dropWhile isWsChar)
              by_cases hde : ((cs5.dropWhile isWsChar).takeWhile
                  isDigitChar).isEmpty
              · rw [if_pos hde] at h; exact absurd h (by simp)
              · rw [if_neg hde] at h
                by_cases hfin : ((cs5.dropWhile isWsChar).dropWhile
                    isDigitChar).dropWhile isWsChar = [')']
                · rw [if_pos hfin] at h
                  injection h with h'
                  injection h' with hname hdigits
                  obtain ⟨hsplit6, hws4⟩ := dropWhile_split isWsChar
                    ((cs5.dropWhile isWsChar).dropWhile isDigitChar)
                  rw [hfin] at hsplit6
                  refine ⟨cs.takeWhile isWsChar, cs3.takeWhile isWsChar,
                    cs5.takeWhile isWsChar,
                    ((cs5.dropWhile isWsChar).dropWhile isDigitChar).takeWhile
                      isWsChar, ?_, hws1, hws2, hws3, hws4, ?_, ?_, ?_, ?_⟩
                  · rw [hsplit6] at hsplit5
                    rw [hsplit5] at hsplit4
                    rw [hsplit4] at hsplit3
                    rw [hsplit3] at hsplit2
                    rw [hsplit2] at hsplit1
                    refine hsplit1.trans ?_
                    rw [hname, hdigits]
                    simp
                  · rw [← hname]
                    intro hn
                    rw [hn] at hemp
                    exact hemp rfl
                  · intro x hx
                    rw [← hname] at hx
                    have := hnq x hx
                    rw [isNotQuote] at this
                    simpa using this
                  · rw [← hdigits]
                    intro hn
                    rw [hn] at hde
                    exact hde rfl
                  · intro x hx
                    rw [← hdigits] at hx
                    exact hdig x hx
                · rw [if_neg hfin] at h
                  exact absurd h (by simp)
            · rw [if_neg hc4] at h
              exact absurd h (by simp)
    · rw [if_neg hc] at h
      exact absurd h (by simp)

end ParserCorrectness

section ParserCompleteness

theorem isEmpty_false_of_ne_nil {l : List Char} (h : l ≠ []) :
    l.isEmpty = false := by
  cases l with
  | nil => exact absurd rfl h
  | cons _ _ => rfl

/-- Completeness of the body scanner: every regex decomposition parses. -/
theorem parseLookupBody_complete (w1 w2 w3 w4 col ds : List Char)
    (hw1 : ∀ c ∈ w1, isWsChar c = true) (hw2 : ∀ c ∈ w2, isWsChar c = true)
    (hw3 : ∀ c ∈ w3, isWsChar c = true) (hw4 : ∀ c ∈ w4, isWsChar c = true)
    (hcol : col ≠ []) (hnq : ∀ c ∈ col, c ≠ '"')
    (hds : ds ≠ []) (hdig : ∀ c ∈ ds, isDigitChar c = true) :
    parseLookupBody (w1 ++ ['"'] ++ col ++ ['"'] ++ w2 ++ [','] ++ w3 ++
      ds ++ w4 ++ [')']) = some (col, ds) := by
  have hform : w1 ++ ['"'] ++ col ++ ['"'] ++ w2 ++ [','] ++ w3 ++
      ds ++ w4 ++ [')'] =
      w1 ++ '"' :: (col ++ '"' :: (w2 ++ ',' :: (w3 ++
        (ds ++ (w4 ++ [')']))))) := by
    simp
  rw [hform, parseLookupBody]
  have hdrop1 : (w1 ++ '"' :: (col ++ '"' :: (w2 ++ ',' :: (w3 ++
      (ds ++ (w4 ++ [')'])))))).dropWhile isWsChar =
      '"' :: (col ++ '"' :: (w2 ++ ',' :: (w3 ++ (ds ++ (w4 ++ [')']))))) := by
    rw [dropWhile_ws_left isWsChar w1 _ hw1]
    exact dropWhile_head_false isWsChar _ _ (by decide)
  rw [hdrop1]
  dsimp only
  rw [if_pos rfl]
  have hnq' : ∀ c ∈ col, isNotQuote c = true := by
    intro c hc
    rw [isNotQuote]
    simpa using hnq c hc
  obtain ⟨htake2, hdrop2⟩ := takeWhile_stop_at isNotQuote col '"'
    (w2 ++ ',' :: (w3 ++ (ds ++ (w4 ++ [')'])))) hnq' (by rw [isNotQuote]; simp)
  rw [htake2, hdrop2, isEmpty_false_of_ne_nil hcol]
  dsimp only
  rw [if_pos rfl]
  have hdrop3 : (w2 ++ ',' :: (w3 ++ (ds ++ (w4 ++ [')'])))).dropWhile
      isWsChar = ',' :: (w3 ++ (ds ++ (w4 ++ [')']))) := by
    rw [dropWhile_ws_left isWsChar w2 _ hw2]
    exact dropWhile_head_false isWsChar _ _ (by decide)
  rw [hdrop3]
  dsimp only
  rw [if_pos rfl]
  obtain ⟨d, ds', rfl⟩ : ∃ d ds', ds = d :: ds' := by
    cases ds with
    | nil => exact absurd rfl hds
    | cons d ds' => exact ⟨d, ds', rfl⟩
  have hdrop4 : (w3 ++ ((d :: ds') ++ (w4 ++ [')']))).dropWhile isWsChar =
      (d :: ds') ++ (w4 ++ [')']) := by
    rw [dropWhile_ws_left isWsChar w3 _ hw3]
    exact dropWhile_head_false isWsChar _ _
      (digit_not_ws d (hdig d (by simp)))
  rw [hdrop4]
  have hstop : ∃ x t, w4 ++ [')'] = x :: t ∧ isDigitChar x = false := by
    cases w4 with
    | nil => exact ⟨')', [], rfl, by decide⟩
    | cons x w4' =>
      exact ⟨x, w4' ++ [')'], rfl, ws_not_digit x (hw4 x (by simp))⟩
  obtain ⟨x, t, hxt, hx⟩ := hstop
  rw [hxt]
  obtain ⟨htake5, hdrop5⟩ := takeWhile_stop_at isDigitChar (d :: ds') x t
    hdig hx
  rw [htake5, hdrop5, isEmpty_false_of_ne_nil (by simp)]
  rw [if_neg (by simp)]
  have hdrop6 : (x :: t).dropWhile isWsChar = [')'] := by
    rw [← hxt, dropWhile_ws_left isWsChar w4 _ hw4]
    exact dropWhile_head_false isWsChar _ _ (by decide)
  rw [hdrop6, if_pos rfl]
  simp

end ParserCompleteness

/-- Full characterisation of `CellValue::is_lookup`: a value is classified
as a lookup reference exactly when it is textual and decomposes along the
regex `^lookup\(\s*"([^"]+)"\s*,\s*(\d+)\s*\)$` (a non-empty quote-free
column capture, a non-empty digit capture that fits in an `i64`). -/
theorem is_lookup_iff (v : CellValue) (lk : LookupCellValue) :
    v.is_lookup = some lk ↔
      ∃ w1 w2 w3 w4 col ds : List Char,
        v = CellValue.String ⟨lookupHead ++ w1 ++ ['"'] ++ col ++ ['"'] ++
          w2 ++ [','] ++ w3 ++ ds ++ w4 ++ [')']⟩ ∧
        (∀ c ∈ w1, isWsChar c = true) ∧ (∀ c ∈ w2, isWsChar c = true) ∧
        (∀ c ∈ w3, isWsChar c = true) ∧ (∀ c ∈ w4, isWsChar c = true) ∧
        col ≠ [] ∧ (∀ c ∈ col, c ≠ '"') ∧
        ds ≠ [] ∧ (∀ c ∈ ds, isDigitChar c = true) ∧
        digitsVal ds ≤ i64Max ∧
        lk = ⟨{ data := col }, Int.ofNat (digitsVal ds)⟩ := by
  constructor
  · intro h
    cases v with
    | Boolean b => simp [CellValue.is_lookup] at h
    | Int n => simp [CellValue.is_lookup] at h
    | Double d => simp [CellValue.is_lookup] at h
    | String s =>
      rw [CellValue.is_lookup] at h
      by_cases hpre : s.data.take 7 = lookupHead
      · rw [if_pos hpre] at h
        cases hbody : parseLookupBody (s.data.drop 7) with
        | none => rw [hbody] at h; exact absurd h (by simp)
        | some nd =>
          obtain ⟨name, digits⟩ := nd
          rw [hbody] at h
          dsimp only at h
          by_cases hbnd : digitsVal digits ≤ i64Max
          · rw [if_pos hbnd] at h
            injection h with h'
            obtain ⟨w1, w2, w3, w4, hdec, hws1, hws2, hws3, hws4,
              hne, hnq, hde, hdig⟩ := parseLookupBody_sound _ _ _ hbody
            refine ⟨w1, w2, w3, w4, name, digits, ?_, hws1, hws2, hws3, hws4,
              hne, hnq, hde, hdig, hbnd, h'.symm⟩
            have hdata : s.data = lookupHead ++ (s.data.drop 7) := by
              rw [← hpre]
              exact (List.take_append_drop 7 s.data).symm
            rw [hdec] at hdata
            congr 1
            refine congrArg String.mk ?_
            rw [hdata]
            simp
          · rw [if_neg hbnd] at h
            exact absurd h (by simp)
      · rw [if_neg hpre] at h
        exact absurd h (by simp)
  · rintro ⟨w1, w2, w3, w4, col, ds, rfl, hws1, hws2, hws3, hws4,
      hne, hnq, hde, hdig, hbnd, rfl⟩
    rw [CellValue.is_lookup]
    have hassoc : lookupHead ++ w1 ++ ['"'] ++ col ++ ['"'] ++
        w2 ++ [','] ++ w3 ++ ds ++ w4 ++ [')'] =
        lookupHead ++ (w1 ++ ['"'] ++ col ++ ['"'] ++
          w2 ++ [','] ++ w3 ++ ds ++ w4 ++ [')']) := by
      simp
    dsimp only
    rw [hassoc, List.take_left' (by rfl), List.drop_left' (by rfl), if_pos rfl,
      parseLookupBody_complete w1 w2 w3 w4 col ds hws1 hws2 hws3 hws4
        hne hnq hde hdig]
    dsimp only
    rw [if_pos hbnd]

section Validator

theorem isValidGo_iff (cols : List SchemaColumn) :
    ∀ seen : List String, Schema.isValidGo seen cols = true ↔
      ((cols.map SchemaColumn.name).Nodup ∧
        (∀ col ∈ cols, '"' ∉ col.name.data) ∧
        (∀ col ∈ cols, col.name ∉ seen)) := by
  induction cols with
  | nil =>
    intro seen
    simp [Schema.isValidGo]
  | cons col rest ih =>
    intro seen
    rw [Schema.isValidGo]
    by_cases hbad : col.name.data.contains '"' || seen.contains col.name
    · rw [if_pos hbad]
      simp only [Bool.or_eq_true, List.elem_iff] at hbad
      constructor
      · intro h
        exact absurd h (by simp)
      · intro ⟨hnd, hq, hseen⟩
        rcases hbad with hb | hb
        · exact absurd hb (hq col (by simp))
        · exact absurd hb (hseen col (by simp))
    · rw [if_neg hbad]
      simp only [Bool.or_eq_true, List.elem_iff, not_or] at hbad
      obtain ⟨hq, hseen⟩ := hbad
      rw [ih (col.name :: seen)]
      constructor
      · intro ⟨hnd, hqr, hsr⟩
        refine ⟨?_, ?_, ?_⟩
        · simp only [List.map_cons, List.nodup_cons]
          refine ⟨?_, hnd⟩
          intro hmem
          obtain ⟨c, hc, hcname⟩ := List.mem_map.1 hmem
          exact (hsr c hc) (by simp [hcname])
        · intro c hc
          rcases List.mem_cons.1 hc with rfl | hc'
          · exact hq
          · exact hqr c hc'
        · intro c hc
          rcases List.mem_cons.1 hc with rfl | hc'
          · exact hseen
          · intro hmem
            exact (hsr c hc') (by simp [hmem])
      · intro ⟨hnd, hqr, hsr⟩
        simp only [List.map_cons, List.nodup_cons] at hnd
        refine ⟨hnd.2, ?_, ?_⟩
        · intro c hc
          exact hqr c (by simp [hc])
        · intro c hc
          simp only [List.mem_cons, not_or]
          constructor
          · intro hname
            exact hnd.1 (List.mem_map.2 ⟨c, hc, hname⟩)
          · exact hsr c (by simp [hc])

/-- Theorem: `Schema::is_valid` decides exactly the validator's contract. -/
theorem is_valid_iff_spec (s : Schema) :
    s.is_valid = true ↔ ValidatorSpec s := by
  rw [Schema.is_valid, isValidGo_iff, ValidatorSpec]
  simp

end Validator

section NewSheet

/-- Trichotomy of `Db::new_sheet`: rejected schemas fail `InvalidSchema`;
accepted non-empty schemas provision an empty sheet; an accepted empty
schema reaches `build_columns_table`, whose `push_values` over zero columns
emits invalid SQL, so provisioning fails with a storage error (and the
transaction rolls back, leaving storage untouched). -/
theorem new_sheet_cases (schema : Schema) :
    (schema.is_valid = false → new_sheet schema = .error .invalidSchema) ∧
    (schema.is_valid = true → schema.columns ≠ [] →
      new_sheet schema = .ok ⟨schema, [], []⟩) ∧
    (schema.is_valid = true → schema.columns = [] →
      new_sheet schema = .error .storageFailure) := by
  refine ⟨?_, ?_, ?_⟩
  · intro h
    rw [new_sheet, if_pos (by simp [h])]
  · intro h hne
    rw [new_sheet, if_neg (by simp [h])]
    rw [if_neg (by simp [hne])]
  · intro h he
    rw [new_sheet, if_neg (by simp [h])]
    rw [if_pos (by simp [he])]

/-- A fresh sheet satisfies every storage invariant. -/
theorem new_sheet_invariants (schema : Schema) (s : SheetState)
    (h : new_sheet schema = .ok s) :
    s.WF ∧ s.Exclusive ∧ Acyclic s.lookups := by
  rw [new_sheet] at h
  by_cases hv : schema.is_valid
  · rw [if_neg (by simp [hv])] at h
    by_cases he : schema.columns.isEmpty
    · rw [if_pos he] at h
      exact absurd h (by simp)
    · rw [if_neg he] at h
      injection h with h'
      subst h'
      refine ⟨⟨by simp [NodupKeys], by simp [NodupKeys], ?_, ?_⟩, ?_, ?_⟩
      · intro c v hv'
        simp [pget] at hv'
      · intro c d hd
        simp [pget] at hd
      · intro c
        exact Or.inl rfl
      · intro c hc
        rcases Relation.TransGen.head'_iff.1 hc with ⟨d, hd, _⟩
        simp [EdgeStep, pget] at hd
  · rw [if_pos (by simp [hv])] at h
    exact absurd h (by simp)

end NewSheet

section ConcreteInvariants

theorem emptySheetAB_invariants :
    emptySheetAB.WF ∧ emptySheetAB.Exclusive ∧ Acyclic emptySheetAB.lookups :=
  new_sheet_invariants schemaAB emptySheetAB rfl

theorem chainState_steps :
    runCells emptySheetAB
      [⟨"B", 5, .String "lookup(\"B\", 4)"⟩,
       ⟨"B", 4, .String "lookup(\"B\", 3)"⟩,
       ⟨"B", 3, .Int 10⟩] = .ok chainState := rfl

theorem chainState_invariants :
    chainState.WF ∧ chainState.Exclusive ∧ Acyclic chainState.lookups := by
  obtain ⟨hwf0, hex0, ha0⟩ := emptySheetAB_invariants
  have h1 : insert_cell emptySheetAB ⟨"B", 5, .String "lookup(\"B\", 4)"⟩ =
      .ok ⟨schemaAB, [], [((1, 5), (1, 4))]⟩ := rfl
  have h2 : insert_cell ⟨schemaAB, [], [((1, 5), (1, 4))]⟩
      ⟨"B", 4, .String "lookup(\"B\", 3)"⟩ =
      .ok ⟨schemaAB, [], [((1, 5), (1, 4)), ((1, 4), (1, 3))]⟩ := rfl
  have h3 : insert_cell ⟨schemaAB, [], [((1, 5), (1, 4)), ((1, 4), (1, 3))]⟩
      ⟨"B", 3, .Int 10⟩ = .ok chainState := rfl
  have hwf1 := insert_cell_preserves_WF _ _ _ h1 hwf0
  have hex1 := insert_cell_preserves_exclusive _ _ _ h1 hwf0 hex0
  have ha1 := insert_cell_preserves_acyclic _ _ _ h1 hwf0.2.1 ha0
  have hwf2 := insert_cell_preserves_WF _ _ _ h2 hwf1
  have hex2 := insert_cell_preserves_exclusive _ _ _ h2 hwf1 hex1
  have ha2 := insert_cell_preserves_acyclic _ _ _ h2 hwf1.2.1 ha1
  exact ⟨insert_cell_preserves_WF _ _ _ h3 hwf2,
    insert_cell_preserves_exclusive _ _ _ h3 hwf2 hex2,
    insert_cell_preserves_acyclic _ _ _ h3 hwf2.2.1 ha2⟩

theorem brokenState_steps :
    runCells emptySheetAB [⟨"A", 50, .String "lookup(\"A\", 51)"⟩] =
      .ok brokenState := rfl

theorem brokenState_invariants :
    brokenState.WF ∧ brokenState.Exclusive ∧ Acyclic brokenState.lookups := by
  obtain ⟨hwf0, hex0, ha0⟩ := emptySheetAB_invariants
  have h1 : insert_cell emptySheetAB ⟨"A", 50, .String "lookup(\"A\", 51)"⟩ =
      .ok brokenState := rfl
  exact ⟨insert_cell_preserves_WF _ _ _ h1 hwf0,
    insert_cell_preserves_exclusive _ _ _ h1 hwf0 hex0,
    insert_cell_preserves_acyclic _ _ _ h1 hwf0.2.1 ha0⟩

end ConcreteInvariants

/-! ## Claim theorems -/

/-- C1 (counterexample): with `suppressNullOnBrokenLookup` set, cells of a
chain whose terminal holds the literal 10 are also omitted from the
output, not assigned 10 as claimed: after building `B5 → B4 → B3 = 10`,
the suppressed read returns no entry for rows 4 and 5 (while the
unsuppressed read resolves row 5 to 10). -/

theorem C1_counterexample :
    (runCells emptySheetAB
      [⟨"B", 5, .String "lookup(\"B\", 4)"⟩,
       ⟨"B", 4, .String "lookup(\"B\", 3)"⟩,
       ⟨"B", 3, .Int 10⟩]).map
      (fun s => (pget s.values (1, 3),
        outputAt (get_sheet s true) (1, 5),
        outputAt (get_sheet s true) (1, 4),
        outputAt (get_sheet s false) (1, 5))) =
    .ok (some (.Int 10), none, none, some (some (.Int 10))) := rfl

/-- C1 (amended): when `suppressNullOnBrokenLookup` is set, every cell
holding a lookup reference — whether its chain is broken or resolves to a
literal — is omitted from `get_sheet`'s output; the cells that remain are
exactly those holding stored literals, with their stored values. -/
theorem C1_suppression_amended (s : SheetState) (hwf : s.WF)
    (hex : s.Exclusive) (c : CellId) (h0 : 0 ≤ c.1) :
    (pget s.lookups c ≠ none → outputAt (get_sheet s true) c = none) ∧
    (pget s.lookups c = none →
      outputAt (get_sheet s true) c = (pget s.values c).map some) := by
  constructor
  · intro hc
    rw [get_sheet_suppressed s hwf c h0]
    rcases hex c with hv | hv
    · rw [hv]; rfl
    · exact absurd hv hc
  · intro _
    exact get_sheet_suppressed s hwf c h0

/-- C1 (witness for the amended theorem): on the resolved chain
`B5 → B4 → B3 = 10`, the suppressed read omits the chain cell `B5` and
keeps the literal cell `B3`. -/
theorem C1_suppression_amended_witness :
    outputAt (get_sheet chainState true) (1, 5) = none ∧
      outputAt (get_sheet chainState true) (1, 3) =
        (pget chainState.values (1, 3)).map some := by
  obtain ⟨hwf, hex, _⟩ := chainState_invariants
  refine ⟨(C1_suppression_amended chainState hwf hex (1, 5) (by decide)).1 ?_,
    (C1_suppression_amended chainState hwf hex (1, 3) (by decide)).2 rfl⟩
  intro hc
  have : pget chainState.lookups (1, 5) = some (1, 4) := rfl
  rw [this] at hc
  exact absurd hc (by simp)

/-- C2 (counterexample): the Schema Validator accepts the empty column
list, but provisioning it is not successful — `build_columns_table`'s
`push_values` over zero columns emits `INSERT ... VALUES ` with no tuple,
which the store rejects, so `create_sheet` fails with a storage error. -/
theorem C2_counterexample :
    Schema.is_valid ⟨[]⟩ = true ∧
      new_sheet ⟨[]⟩ = .error .storageFailure := ⟨rfl, rfl⟩

/-- C2 (amended): `create_sheet` fails with `InvalidSchema` exactly when
the Schema Validator rejects the column list (a duplicated name or a name
containing a double quote); every accepted non-empty schema is provisioned
into a fresh sheet; the accepted empty schema fails with a storage error.
On every failure the transaction is rolled back, so storage is untouched
(an `Except.error` result carries no new state). -/
theorem C2_create_sheet_amended (schema : Schema) :
    (new_sheet schema = .error .invalidSchema ↔ ¬ ValidatorSpec schema) ∧
    (ValidatorSpec schema → schema.columns ≠ [] →
      new_sheet schema = .ok ⟨schema, [], []⟩) ∧
    (ValidatorSpec schema → schema.columns = [] →
      new_sheet schema = .error .storageFailure) := by
  obtain ⟨h1, h2, h3⟩ := new_sheet_cases schema
  refine ⟨⟨?_, ?_⟩, ?_, ?_⟩
  · intro herr hspec
    have hv : schema.is_valid = true := (is_valid_iff_spec schema).2 hspec
    by_cases he : schema.columns = []
    · rw [h3 hv he] at herr
      exact absurd herr (by simp)
    · rw [h2 hv he] at herr
      exact absurd herr (by simp)
  · intro hspec
    have hv : schema.is_valid = false := by
      cases hval : schema.is_valid with
      | false => rfl
      | true => exact absurd ((is_valid_iff_spec schema).1 hval) hspec
    exact h1 hv
  · intro hspec hne
    exact h2 ((is_valid_iff_spec schema).2 hspec) hne
  · intro hspec he
    exact h3 ((is_valid_iff_spec schema).2 hspec) he

/-- C2 (witness): the scenario schema `A:boolean, B:int` satisfies the
validator's contract and provisions successfully. -/
theorem C2_create_sheet_amended_witness :
    new_sheet schemaAB = .ok ⟨schemaAB, [], []⟩ :=
  (C2_create_sheet_amended schemaAB).2.1 (by constructor <;> decide)
    (by decide)

/-- C3 (counterexample): the lookup pattern's row capture is `\d+`, so a
signed row is not recognised: `lookup("B", -1)` is classified as a string
literal, not a lookup reference (while the same text with row `1` is a
lookup) — contradicting "the row may be an arbitrary signed integer". -/
theorem C3_counterexample :
    CellValue.is_lookup (.String "lookup(\"B\", -1)") = none ∧
      CellValue.is_lookup (.String "lookup(\"B\", 1)") =
        some ⟨"B", 1⟩ := ⟨rfl, rfl⟩

/-- C3 (amended): an incoming value is classified as a lookup reference
iff it is textual and matches `lookup("<targetColumnName>", <row>)` with
whitespace tolerated inside the parentheses around both arguments, where
the target column name is non-empty and quote-free and the row is a
non-negative decimal digit string whose value fits in an `i64`; otherwise
it is treated as a literal. -/
theorem C3_classification_amended (v : CellValue) (lk : LookupCellValue) :
    v.is_lookup = some lk ↔
      ∃ w1 w2 w3 w4 col ds : List Char,
        v = CellValue.String ⟨lookupHead ++ w1 ++ ['"'] ++ col ++ ['"'] ++
          w2 ++ [','] ++ w3 ++ ds ++ w4 ++ [')']⟩ ∧
        (∀ c ∈ w1, isWsChar c = true) ∧ (∀ c ∈ w2, isWsChar c = true) ∧
        (∀ c ∈ w3, isWsChar c = true) ∧ (∀ c ∈ w4, isWsChar c = true) ∧
        col ≠ [] ∧ (∀ c ∈ col, c ≠ '"') ∧
        ds ≠ [] ∧ (∀ c ∈ ds, isDigitChar c = true) ∧
        digitsVal ds ≤ i64Max ∧
        lk = ⟨{ data := col }, Int.ofNat (digitsVal ds)⟩ :=
  is_lookup_iff v lk

/-- C3 (witness): `lookup( "B" , 12 )` decomposes along the pattern and is
classified as a lookup of column `B`, row 12. -/
theorem C3_classification_amended_witness :
    CellValue.is_lookup (.String "lookup( \"B\" , 12 )") =
      some ⟨"B", 12⟩ :=
  (C3_classification_amended (.String "lookup( \"B\" , 12 )") ⟨"B", 12⟩).2
    ⟨[' '], [' '], [' '], [' '], ['B'], ['1', '2'], rfl,
      by decide, by decide, by decide, by decide, by decide, by decide,
      by decide, by decide, by decide, rfl⟩

/-- C4: the lookup-edge relation of a sheet is acyclic at all times: a
fresh sheet has no edges, every successful `set_cell` preserves
acyclicity, and a `set_cell` whose (resolvable, well-typed) lookup would
close a directed cycle — the target reaching the source through existing
edges, including the zero-length path `source = target` — fails with
`CycleDetected`; the failing transaction is rolled back, so the sheet's
state is unchanged. -/
theorem C4_acyclicity (s : SheetState) (hn : NodupKeys s.lookups)
    (ha : Acyclic s.lookups) :
    (∀ cell s', insert_cell s cell = .ok s' → Acyclic s'.lookups) ∧
    (∀ cell colId kind targetColId targetKind lookup,
      s.schema.getColumn cell.column = some (colId, kind) →
      cell.value.is_lookup = some lookup →
      s.schema.getColumn lookup.target_col = some (targetColId, targetKind) →
      kind = targetKind →
      Relation.ReflTransGen (EdgeStep s.lookups)
        (targetColId, lookup.target_row) (colId, cell.row) →
      insert_cell s cell = .error .cycleDetected) := by
  constructor
  · intro cell s' h
    exact insert_cell_preserves_acyclic s cell s' h hn ha
  · intro cell colId kind targetColId targetKind lookup hcol hlk htcol hkind
      hcycle
    exact insert_cell_cycle_error s cell hn ha colId kind targetColId
      targetKind lookup hcol hlk htcol hkind hcycle

/-- C4 (witness): on the chain `B5 → B4 → B3 = 10`, writing
`lookup("B", 5)` into `B3` would close the three-cell cycle and fails
with `CycleDetected`. -/
theorem C4_acyclicity_witness :
    insert_cell chainState ⟨"B", 3, .String "lookup(\"B\", 5)"⟩ =
      .error .cycleDetected := by
  obtain ⟨hwf, _, ha⟩ := chainState_invariants
  refine (C4_acyclicity chainState hwf.2.1 ha).2
    ⟨"B", 3, .String "lookup(\"B\", 5)"⟩ 1 .Int 1 .Int ⟨"B", 5⟩
    rfl rfl rfl rfl ?_
  exact Relation.ReflTransGen.head rfl
    (Relation.ReflTransGen.head rfl Relation.ReflTransGen.refl)

/-- C5: a cell has at most one representation at any time.  Every
successful `set_cell` preserves the exclusivity invariant; moreover a
successful literal write deletes the cell's outgoing edge and stores the
literal, and a successful lookup write nulls the cell's literal in the
value table. -/
theorem C5_representation_exclusivity (s : SheetState) (hwf : s.WF) :
    (∀ cell s', insert_cell s cell = .ok s' → s.Exclusive → s'.Exclusive) ∧
    (∀ cell s' colId kind, insert_cell s cell = .ok s' →
      s.schema.getColumn cell.column = some (colId, kind) →
      (cell.value.is_lookup = none →
        pget s'.lookups (colId, cell.row) = none ∧
        pget s'.values (colId, cell.row) = some cell.value) ∧
      (∀ lookup, cell.value.is_lookup = some lookup →
        pget s'.values (colId, cell.row) = none)) := by
  constructor
  · intro cell s' h hex
    exact insert_cell_preserves_exclusive s cell s' h hwf hex
  · intro cell s' colId kind h hcol
    exact insert_cell_removes_other s cell s' h hwf colId kind hcol

/-- C5 (witness): overwriting the lookup cell `B5` of the chain sheet with
the literal 7 removes its edge and stores the literal; overwriting the
literal cell `B3` with a lookup nulls its stored 10. -/
theorem C5_representation_exclusivity_witness :
    (pget (perase chainState.lookups (1, 5)) (1, 5) = none ∧
      pget (pset chainState.values (1, 5) (.Int 7)) (1, 5) =
        some (.Int 7)) ∧
    pget (perase chainState.values (1, 3)) (1, 3) = none := by
  obtain ⟨hwf, _, _⟩ := chainState_invariants
  have h1 : insert_cell chainState ⟨"B", 5, .Int 7⟩ =
      .ok ⟨schemaAB, pset chainState.values (1, 5) (.Int 7),
        perase chainState.lookups (1, 5)⟩ := rfl
  have h2 : insert_cell chainState ⟨"B", 3, .String "lookup(\"B\", 2)"⟩ =
      .ok ⟨schemaAB, perase chainState.values (1, 3),
        pset chainState.lookups (1, 3) (1, 2)⟩ := rfl
  refine ⟨((C5_representation_exclusivity chainState hwf).2
      ⟨"B", 5, .Int 7⟩ _ 1 .Int h1 rfl).1 rfl,
    ((C5_representation_exclusivity chainState hwf).2
      ⟨"B", 3, .String "lookup(\"B\", 2)"⟩ _ 1 .Int h2 rfl).2 ⟨"B", 2⟩ rfl⟩

/-- C6: a literal whose runtime kind differs from the target column's
declared kind fails with `TypeMismatch`, and symmetrically a lookup whose
target column's declared kind differs from the source column's fails with
`TypeMismatch`; the failing transaction is rolled back, so the sheet's
state is unchanged. -/
theorem C6_type_enforcement (s : SheetState) :
    (∀ cell colId kind,
      s.schema.getColumn cell.column = some (colId, kind) →
      cell.value.is_lookup = none →
      kind ≠ SchemaColumnKind.ofValue cell.value →
      insert_cell s cell = .error .typeMismatch) ∧
    (∀ cell colId kind targetColId targetKind lookup,
      s.schema.getColumn cell.column = some (colId, kind) →
      cell.value.is_lookup = some lookup →
      s.schema.getColumn lookup.target_col = some (targetColId, targetKind) →
      kind ≠ targetKind →
      insert_cell s cell = .error .typeMismatch) := by
  constructor
  · intro cell colId kind hcol hlk hkind
    exact insert_cell_literal_type_error s cell colId kind hcol hlk hkind
  · intro cell colId kind targetColId targetKind lookup hcol hlk htcol hkind
    exact insert_cell_lookup_type_error s cell colId targetColId kind
      targetKind lookup hcol hlk htcol hkind

/-- C6 (witness): writing the string literal `"text"` into the int column
`B` fails with `TypeMismatch` (spec scenario 3), as does pointing a lookup
in `B` at the boolean column `A`. -/
theorem C6_type_enforcement_witness :
    insert_cell chainState ⟨"B", 0, .String "text"⟩ =
        .error .typeMismatch ∧
      insert_cell chainState ⟨"B", 5, .String "lookup(\"A\", 5)"⟩ =
        .error .typeMismatch :=
  ⟨(C6_type_enforcement chainState).1 ⟨"B", 0, .String "text"⟩ 1 .Int
      rfl rfl (by decide),
    (C6_type_enforcement chainState).2 ⟨"B", 5, .String "lookup(\"A\", 5)"⟩
      1 .Int 0 .Boolean ⟨"A", 5⟩ rfl rfl rfl (by decide)⟩

/-- C7: with suppression off, every cell of a chain whose terminal holds a
literal `V` resolves to `V` in `get_sheet`'s output; concretely, after
`set_cell(B,5,lookup("B",4))`, `set_cell(B,4,lookup("B",3))`,
`set_cell(B,3,10)`, reading the sheet yields column
`B = [(3,10),(4,10),(5,10)]` (rows sorted, as the integration tests
compare them). -/
theorem C7_chain_resolution :
    (∀ (s : SheetState), s.WF → Acyclic s.lookups →
      ∀ c t V, pget s.lookups c ≠ none → IsTerm s.lookups c t →
        pget s.values t = some V →
        outputAt (get_sheet s false) c = some (some V)) ∧
    (runCells emptySheetAB
      [⟨"B", 5, .String "lookup(\"B\", 4)"⟩,
       ⟨"B", 4, .String "lookup(\"B\", 3)"⟩,
       ⟨"B", 3, .Int 10⟩]).map
      (fun s => (outputColumn (get_sheet s false) "B").map sortRows) =
      .ok (some [(3, some (.Int 10)), (4, some (.Int 10)),
        (5, some (.Int 10))]) := by
  constructor
  · intro s hwf ha c t V hc ht hV
    rw [(get_sheet_resolves s hwf ha).1 c t hc ht, hV]
  · rfl

/-- C7 (witness): on the concrete chain, cell `B5` reads back 10. -/
theorem C7_chain_resolution_witness :
    outputAt (get_sheet chainState false) (1, 5) = some (some (.Int 10)) := by
  obtain ⟨hwf, _, ha⟩ := chainState_invariants
  refine C7_chain_resolution.1 chainState hwf ha (1, 5) (1, 3) (.Int 10)
    ?_ ⟨?_, rfl⟩ rfl
  · intro hc
    have : pget chainState.lookups (1, 5) = some (1, 4) := rfl
    rw [this] at hc
    exact absurd hc (by simp)
  · exact Relation.ReflTransGen.head rfl
      (Relation.ReflTransGen.head rfl Relation.ReflTransGen.refl)

/-- C8: a chain terminating at a cell with no stored literal resolves
every member to null when suppression is off, and omits every member when
suppression is on; conversely, a null value in the output only arises
from an unsuppressed broken chain. -/
theorem C8_broken_chains (s : SheetState) (hwf : s.WF) (hex : s.Exclusive)
    (ha : Acyclic s.lookups) :
    (∀ c t, pget s.lookups c ≠ none → IsTerm s.lookups c t →
      pget s.values t = none →
      outputAt (get_sheet s false) c = some none ∧
        outputAt (get_sheet s true) c = none) ∧
    (∀ (b : Bool) c, 0 ≤ c.1 → outputAt (get_sheet s b) c = some none →
      b = false ∧ ∃ t, pget s.lookups c ≠ none ∧ IsTerm s.lookups c t ∧
        pget s.values t = none) := by
  constructor
  · intro c t hc ht hterm
    have h0 : 0 ≤ c.1 := by
      cases hg : pget s.lookups c with
      | none => exact absurd hg hc
      | some d => exact (hwf.2.2.2 c d hg).1
    constructor
    · rw [(get_sheet_resolves s hwf ha).1 c t hc ht, hterm]
    · rw [get_sheet_suppressed s hwf c h0]
      rcases hex c with hv | hv
      · rw [hv]; rfl
      · exact absurd hv hc
  · intro b c h0 h
    exact output_null_only_broken s hwf ha b c h0 h

/-- C8 (witness): for `set_cell(A,50,lookup("A",51))` with row 51 never
written, the unsuppressed read yields `A` row 50 = null and the
suppressed read omits it. -/
theorem C8_broken_chains_witness :
    outputAt (get_sheet brokenState false) (0, 50) = some none ∧
      outputAt (get_sheet brokenState true) (0, 50) = none := by
  obtain ⟨hwf, hex, ha⟩ := brokenState_invariants
  refine (C8_broken_chains brokenState hwf hex ha).1 (0, 50) (0, 51)
    ?_ ⟨Relation.ReflTransGen.single rfl, rfl⟩ rfl
  intro hc
  have : pget brokenState.lookups (0, 50) = some (0, 51) := rfl
  rw [this] at hc
  exact absurd hc (by simp)

/-- C9: under the standing invariants — the edge set is acyclic and each
cell has at most one outgoing edge (distinct source keys) — the
cycle-detection walk of `set_cell` terminates within one edge-lookup per
cell of the sheet: with that much fuel it always returns an answer, and
the sheet has at least as many cells as stored edges. -/
theorem C9_walk_terminates (s : SheetState) (hn : NodupKeys s.lookups)
    (ha : Acyclic s.lookups) (src tgt : CellId) :
    (detectCycle s.lookups src tgt (sheetCells s).length).isSome ∧
      s.lookups.length ≤ (sheetCells s).length :=
  detectCycle_total_of_acyclic s hn ha src tgt

/-- C9 (witness): on the chain sheet (three cells, two edges) the walk
from `B2` towards `B1` answers within three steps. -/
theorem C9_walk_terminates_witness :
    (detectCycle chainState.lookups (1, 1) (1, 2)
        (sheetCells chainState).length).isSome ∧
      chainState.lookups.length ≤ (sheetCells chainState).length := by
  obtain ⟨hwf, _, ha⟩ := chainState_invariants
  exact C9_walk_terminates chainState hwf.2.1 ha (1, 1) (1, 2)

section EmptyColumns

/-- A listed entry's key is found by point lookup (with some value). -/
theorem pget_isSome_of_mem {K V : Type} [DecidableEq K] (l : List (K × V))
    (k : K) (v : V) (h : (k, v) ∈ l) : (pget l k).isSome := by
  induction l with
  | nil => simp at h
  | cons hd t ih =>
    obtain ⟨k0, v0⟩ := hd
    by_cases hk : k0 = k
    · subst hk
      rw [pget, if_pos rfl]
      rfl
    · rw [pget, if_neg hk]
      rcases List.mem_cons.1 h with heq | hmem
      · injection heq with h1 _
        exact absurd h1.symm hk
      · exact ih hmem

/-- Erasing an entry only removes keys. -/
theorem pget_perase_isSome {K V : Type} [DecidableEq K] (l : List (K × V))
    (k c : K) (h : (pget (perase l k) c).isSome) : (pget l c).isSome := by
  induction l with
  | nil => simpa [perase] using h
  | cons hd t ih =>
    obtain ⟨k0, v0⟩ := hd
    by_cases hk : k0 = k
    · subst hk
      rw [perase, if_pos rfl] at h
      by_cases hc : k0 = c
      · rw [pget, if_pos hc]
        rfl
      · rw [pget, if_neg hc]
        exact h
    · rw [perase, if_neg hk] at h
      by_cases hc : k0 = c
      · rw [pget, if_pos hc]
        rfl
      · rw [pget, if_neg hc] at h ⊢
        exact ih h

/-- Every cell on the walk's stack is inherited or a pending source. -/
theorem walkChain_stack_sources :
    ∀ (fuel : Nat) (pend : LookupMap) (cur : CellId) (s₀ : List CellId)
      (c : CellId), c ∈ (walkChain fuel pend cur s₀).1 →
      c ∈ s₀ ∨ (pget pend c).isSome := by
  intro fuel
  induction fuel with
  | zero =>
    intro pend cur s₀ c h
    exact Or.inl h
  | succ f ih =>
    intro pend cur s₀ c h
    rw [walkChain] at h
    cases hg : pget pend cur with
    | none =>
      rw [hg] at h
      exact Or.inl h
    | some nxt =>
      rw [hg] at h
      rcases ih (perase pend cur) nxt (cur :: s₀) c h with hmem | hsome
      · rcases List.mem_cons.1 hmem with rfl | hmem'
        · exact Or.inr (by rw [hg]; rfl)
        · exact Or.inl hmem'
      · exact Or.inr (pget_perase_isSome pend cur c hsome)

/-- The walk only removes pending entries. -/
theorem walkChain_pending_isSome :
    ∀ (fuel : Nat) (pend : LookupMap) (cur : CellId) (s₀ : List CellId)
      (c : CellId), (pget (walkChain fuel pend cur s₀).2.2 c).isSome →
      (pget pend c).isSome := by
  intro fuel
  induction fuel with
  | zero =>
    intro pend cur s₀ c h
    exact h
  | succ f ih =>
    intro pend cur s₀ c h
    rw [walkChain] at h
    cases hg : pget pend cur with
    | none =>
      rw [hg] at h
      exact h
    | some nxt =>
      rw [hg] at h
      exact pget_perase_isSome pend cur c
        (ih (perase pend cur) nxt (cur :: s₀) c h)

/-- A single stack assignment adds at most the assigned cell's address. -/
theorem regSet_isSome_cases (reg : List RowContent) (c : CellId)
    (v : Option CellValue) (i : Nat) (row : Int)
    (h : (pget ((regSet reg c v).getD i []) row).isSome) :
    (pget (reg.getD i []) row).isSome ∨ (c.1.toNat = i ∧ c.2 = row) := by
  by_cases hi : c.1.toNat = i
  · subst hi
    rcases Nat.lt_or_ge c.1.toNat reg.length with hlt | hge
    · rw [regSet, getD_set_self _ _ _ _ hlt] at h
      by_cases hr : row = c.2
      · exact Or.inr ⟨rfl, hr.symm⟩
      · rw [pget_pset_ne _ _ _ _ hr] at h
        exact Or.inl h
    · rw [regSet, List.set_eq_of_length_le hge] at h
      exact Or.inl h
  · rw [regSet, getD_set_ne _ _ _ _ _ hi] at h
    exact Or.inl h

/-- The whole stack assignment adds at most the stack cells' addresses. -/
theorem foldl_regSet_isSome_cases (v : Option CellValue) (i : Nat)
    (row : Int) :
    ∀ (w : List CellId) (reg : List RowContent),
    (pget ((w.foldl (fun r k => regSet r k v) reg).getD i []) row).isSome →
    (pget (reg.getD i []) row).isSome ∨
      ∃ c ∈ w, c.1.toNat = i ∧ c.2 = row := by
  intro w
  induction w with
  | nil =>
    intro reg h
    exact Or.inl h
  | cons a w' ih =>
    intro reg h
    rw [List.foldl_cons] at h
    rcases ih (regSet reg a v) h with h' | ⟨c, hc, hci⟩
    · rcases regSet_isSome_cases reg a v i row h' with h'' | hai
      · exact Or.inl h''
      · exact Or.inr ⟨a, by simp, hai⟩
    · exact Or.inr ⟨c, by simp [hc], hci⟩

/-- The resolution loop populates a row only from the initial literal
content or from a pending lookup source: a column with no literals and no
lookup sources stays empty through resolution, for both flag values. -/
theorem resolveLoop_mem_source (b : Bool) (i : Nat) (row : Int) :
    ∀ (f : Nat) (reg : List RowContent) (pend : LookupMap),
    (pget ((resolveLoop f reg pend b).getD i []) row).isSome →
    (pget (reg.getD i []) row).isSome ∨
      ∃ c : CellId, (pget pend c).isSome ∧ c.1.toNat = i ∧ c.2 = row := by
  intro f
  induction f with
  | zero =>
    intro reg pend h
    exact Or.inl h
  | succ k ih =>
    intro reg pend h
    cases pend with
    | nil => exact Or.inl h
    | cons hd rest =>
      obtain ⟨k0, d0⟩ := hd
      rw [resolveLoop] at h
      rcases ih _ _ h with h' | ⟨c, hc, hci⟩
      · cases b with
        | true =>
          rw [if_pos rfl] at h'
          exact Or.inl h'
        | false =>
          rw [if_neg (by simp)] at h'
          rcases foldl_regSet_isSome_cases _ i row _ reg h' with h'' | ⟨c, hc, hci⟩
          · exact Or.inl h''
          · rcases walkChain_stack_sources _ _ _ _ c hc with hmem | hsome
            · simp at hmem
            · exact Or.inr ⟨c, hsome, hci⟩
      · exact Or.inr ⟨c,
          walkChain_pending_isSome _ _ _ _ c (by rwa [Option.isSome_iff_exists]
            at hc ⊢), hci⟩

/-- A row map with no retrievable key is empty. -/
theorem rowContent_empty_of_pget_none (m : RowContent)
    (h : ∀ r, pget m r = none) : m = [] := by
  cases m with
  | nil => rfl
  | cons hd t =>
    obtain ⟨k, v⟩ := hd
    have := h k
    rw [pget, if_pos rfl] at this
    exact absurd this (by simp)

/-- A column with no literal cells starts resolution empty. -/
theorem literalContent_col_nil (s : SheetState) (i : Nat)
    (hi : i < s.schema.columns.length)
    (hv : ∀ r, pget s.values (Int.ofNat i, r) = none) :
    (literalContent s).getD i [] = [] := by
  rw [literalContent, getD_map_range _ _ _ _ hi]
  rw [List.filterMap_eq_nil_iff]
  intro cv hcv
  by_cases hcol : cv.1.1 = Int.ofNat i
  · have hkey : cv.1 = (Int.ofNat i, cv.1.2) := by
      obtain ⟨⟨c1, c2⟩, v⟩ := cv
      simp only at hcol
      rw [hcol]
    have hsome : (pget s.values (Int.ofNat i, cv.1.2)).isSome := by
      refine pget_isSome_of_mem s.values _ cv.2 ?_
      rw [← hkey]
      exact hcv
    rw [hv cv.1.2] at hsome
    exact absurd hsome (by simp)
  · rw [if_neg hcol]

/-- Indexed access into the output assembly. -/
theorem zipWith_getD_names (cols : List SchemaColumn) :
    ∀ (reg : List RowContent) (i : Nat), cols.length = reg.length →
    i < cols.length →
    (List.zipWith (fun (col : SchemaColumn) rows => (col.name, rows))
        cols reg).getD i ("", []) =
      ((cols.getD i ⟨"", .Boolean⟩).name, reg.getD i []) := by
  induction cols with
  | nil =>
    intro reg i _ hi
    simp at hi
  | cons col rest ih =>
    intro reg i hlen hi
    cases reg with
    | nil => simp at hlen
    | cons r rrest =>
      cases i with
      | zero => rfl
      | succ j =>
        simp only [List.zipWith_cons_cons, List.getD_cons_succ]
        exact ih rrest j (by simpa using hlen) (by simpa using hi)

theorem length_get_sheet (s : SheetState) (b : Bool) :
    (get_sheet s b).length = s.schema.columns.length := by
  rw [get_sheet, List.length_zipWith, length_resolveLoop,
    length_literalContent]
  exact Nat.min_self _

/-- In a list with distinct keys, the entry at a position is what point
lookup returns for its key. -/
theorem pget_getD_of_nodupKeys {K V : Type} [DecidableEq K]
    [Inhabited K] [Inhabited V] (l : List (K × V)) :
    ∀ (i : Nat), NodupKeys l → i < l.length →
    pget l (l.getD i default).1 = some (l.getD i default).2 := by
  induction l with
  | nil =>
    intro i _ hi
    simp at hi
  | cons hd t ih =>
    intro i hn hi
    obtain ⟨k0, v0⟩ := hd
    simp only [NodupKeys, List.map_cons, List.nodup_cons] at hn
    cases i with
    | zero =>
      rw [List.getD_cons_zero, pget, if_pos rfl]
    | succ j =>
      rw [List.getD_cons_succ]
      have hj : j < t.length := by simpa using hi
      have hmem : t.getD j default ∈ t := by
        rw [List.getD_eq_getElem _ _ hj]
        exact List.getElem_mem hj
      have hne : k0 ≠ (t.getD j default).1 := by
        intro hk
        exact hn.1 (List.mem_map.2 ⟨t.getD j default, hmem, hk.symm⟩)
      rw [pget, if_neg hne]
      exact ih j hn.2 hj

/-- A column holding no literals and no lookup sources resolves to the
empty row list, for both flag values. -/
theorem get_sheet_empty_column (s : SheetState) (hwf : s.WF) (b : Bool)
    (i : Nat) (hi : i < s.schema.columns.length)
    (hv : ∀ r, pget s.values (Int.ofNat i, r) = none)
    (hl : ∀ r, pget s.lookups (Int.ofNat i, r) = none) :
    (get_sheet s b).getD i ("", []) =
      ((s.schema.columns.getD i ⟨"", .Boolean⟩).name, []) := by
  rw [get_sheet, zipWith_getD_names _ _ i
    (by rw [length_resolveLoop, length_literalContent]) hi]
  have hempty : (resolveLoop s.lookups.length (literalContent s)
      s.lookups b).getD i [] = [] := by
    refine rowContent_empty_of_pget_none _ ?_
    intro r
    cases hres : pget ((resolveLoop s.lookups.length (literalContent s)
        s.lookups b).getD i []) r with
    | none => rfl
    | some u =>
      have hsome : (pget ((resolveLoop s.lookups.length (literalContent s)
          s.lookups b).getD i []) r).isSome := by rw [hres]; rfl
      rcases resolveLoop_mem_source b i r _ _ _ hsome with h' | ⟨c, hc, hci, hcr⟩
      · rw [literalContent_col_nil s i hi hv] at h'
        exact absurd h' (by simp [pget])
      · obtain ⟨d, hd⟩ := Option.isSome_iff_exists.1 hc
        have h0 : 0 ≤ c.1 := (hwf.2.2.2 c d hd).1
        have hc1 : c.1 = Int.ofNat i := by
          rw [← hci]
          exact (Int.toNat_of_nonneg h0).symm
        have hkey : c = (Int.ofNat i, r) := by
          obtain ⟨c1, c2⟩ := c
          simp only at hc1 hcr
          rw [hc1, hcr]
        rw [hkey, hl r] at hd
        exact absurd hd (by simp)
  rw [hempty]

end EmptyColumns

/-- C10: for every sheet and both suppression settings, `get_sheet`
returns exactly one entry per schema column, keyed by the column's name in
declared order; a name has no entry exactly when it is not a schema
column; for a valid (provisioned) schema the entries' keys are pairwise
distinct; and a column holding no literals and no lookup sources (so, in
particular, no resolved lookups) is present at its position with an empty
row list rather than absent — for a valid schema, looking that column up
by name yields `some []`. -/
theorem C10_output_columns (s : SheetState) (b : Bool) :
    (get_sheet s b).map Prod.fst = s.schema.columns.map SchemaColumn.name ∧
    (∀ name, outputColumn (get_sheet s b) name = none ↔
      name ∉ s.schema.columns.map SchemaColumn.name) ∧
    (s.schema.is_valid = true → ((get_sheet s b).map Prod.fst).Nodup) ∧
    (s.WF → ∀ i, i < s.schema.columns.length →
      (∀ r, pget s.values (Int.ofNat i, r) = none) →
      (∀ r, pget s.lookups (Int.ofNat i, r) = none) →
      (get_sheet s b).getD i ("", []) =
        ((s.schema.columns.getD i ⟨"", .Boolean⟩).name, []) ∧
      (s.schema.is_valid = true →
        outputColumn (get_sheet s b)
          (s.schema.columns.getD i ⟨"", .Boolean⟩).name = some [])) := by
  refine ⟨get_sheet_column_names s b, ?_, ?_, ?_⟩
  · intro name
    rw [outputColumn, pget_eq_none_iff, get_sheet_column_names s b]
  · intro hv
    rw [get_sheet_column_names s b]
    exact ((is_valid_iff_spec s.schema).1 hv).1
  · intro hwf i hi hval hlk
    have hentry := get_sheet_empty_column s hwf b i hi hval hlk
    refine ⟨hentry, ?_⟩
    intro hv
    have hnd : NodupKeys (get_sheet s b) := by
      rw [NodupKeys, get_sheet_column_names s b]
      exact ((is_valid_iff_spec s.schema).1 hv).1
    have hlen : i < (get_sheet s b).length := by
      rw [length_get_sheet]
      exact hi
    have hp := pget_getD_of_nodupKeys (get_sheet s b) i hnd hlen
    have hd : (get_sheet s b).getD i default =
        ((s.schema.columns.getD i ⟨"", .Boolean⟩).name, []) := hentry
    rw [hd] at hp
    rw [outputColumn]
    exact hp

/-- C10 (witness): the empty `A/B` sheet's output has exactly the entries
`A` and `B`, with distinct keys and no entry for `C`, and the empty
column `A` maps to the empty list rather than being absent. -/
theorem C10_output_columns_witness :
    (get_sheet emptySheetAB true).map Prod.fst = ["A", "B"] ∧
      outputColumn (get_sheet emptySheetAB true) "C" = none ∧
      ((get_sheet emptySheetAB true).map Prod.fst).Nodup ∧
      (get_sheet emptySheetAB true).getD 0 ("", []) = ("A", []) ∧
      outputColumn (get_sheet emptySheetAB true) "A" = some [] := by
  obtain ⟨h1, h2, h3, h4⟩ := C10_output_columns emptySheetAB true
  obtain ⟨h5, h6⟩ := h4 emptySheetAB_invariants.1 0 (by decide)
    (fun r => rfl) (fun r => rfl)
  exact ⟨h1, (h2 "C").2 (by decide), h3 rfl, h5, h6 rfl⟩

